import Mathlib

/-!
Verification of the Earley parsing engine (`parser.py`) and the EBNF
grammar compiler (`grammar_parser.py`) of the banga/python-parser
repository.  All definitions are shallow embeddings translated directly
from the Python source; theorems check the natural-language specification
against them.
-/

set_option maxHeartbeats 1000000
set_option linter.unusedSectionVars false

namespace PyEarley

/-- Embeds the `Symbol` namedtuple of parser.py (fields `token`,
`is_terminal`).  A nonterminal's `token` is a string (kept as `List Char`);
a terminal's `token` is a matcher value of type `μ`. -/
inductive Sym (μ : Type) where
  | nt (name : List Char)
  | t  (m : μ)
deriving DecidableEq, Repr

/-- `is_terminal` field of the `Symbol` namedtuple. -/
def Sym.isTerm {μ : Type} : Sym μ → Bool
  | .nt _ => false
  | .t _ => true

/-- Embeds the `Rule` namedtuple of parser.py: `symbol` (the head) and
`expansion` (the ordered body, possibly empty). -/
structure Rule (μ : Type) where
  symbol : Sym μ
  expansion : List (Sym μ)
deriving DecidableEq, Repr

variable {μ : Type} [DecidableEq μ]

/-- Body of the `for rule in self.rules` loop of `Grammar._find_nullables`:
a rule head not yet in the set is added when its entire expansion is already
in the set. -/
def passStep (acc : List (Sym μ)) (r : Rule μ) : List (Sym μ) :=
  if r.symbol ∈ acc then acc
  else if r.expansion.all (fun s => decide (s ∈ acc)) then acc ++ [r.symbol]
  else acc

/-- One inner pass of `Grammar._find_nullables` over all rules. -/
def passNullable (rules : List (Rule μ)) (acc : List (Sym μ)) : List (Sym μ) :=
  rules.foldl passStep acc

/-- The outer `while True` loop of `Grammar._find_nullables`, iterated until a
full pass adds nothing.  The fuel `rules.length + 1` is provably enough. -/
def nullLoop (rules : List (Rule μ)) : Nat → List (Sym μ) → List (Sym μ)
  | 0, acc => acc
  | n + 1, acc =>
    if passNullable rules acc = acc then acc
    else nullLoop rules n (passNullable rules acc)

/-- `Grammar._find_nullables`: fixed-point iteration starting from the empty
set. -/
def findNullables (rules : List (Rule μ)) : List (Sym μ) :=
  nullLoop rules (rules.length + 1) []

/-- `Grammar.validate`: every nonterminal symbol occurring in some rule's
expansion must head at least one rule. -/
def validateRules (rules : List (Rule μ)) : Bool :=
  ((rules.map (fun r => r.expansion.filter (fun s => !s.isTerm))).flatten).all
    (fun s => rules.any (fun r => r.symbol = s))

/-- Embeds the `Grammar` class of parser.py: the rule list, the start symbol
and the `nullable` set computed at construction time. -/
structure Grammar (μ : Type) where
  rules : List (Rule μ)
  start : Sym μ
  nullable : List (Sym μ)
deriving DecidableEq, Repr

/-- `Grammar.__init__`: validation happens first (a failed `assert` aborts
construction, modelled as `none`); on success the `nullable` set is computed
eagerly. -/
def mkGrammar (rules : List (Rule μ)) (start : Sym μ) : Option (Grammar μ) :=
  if validateRules rules then some ⟨rules, start, findNullables rules⟩ else none

/-- C6: Grammar construction fails exactly when some nonterminal symbol
appears in a rule's expansion yet heads no rule; the check happens inside
`mkGrammar` itself, i.e. at construction time, before any `Grammar` value
(and hence any parse) can exist. -/
theorem mkGrammar_none_iff_dangling (rules : List (Rule μ)) (start : Sym μ) :
    mkGrammar rules start = none ↔
      ∃ s : Sym μ, s.isTerm = false ∧ (∃ r ∈ rules, s ∈ r.expansion) ∧
        ∀ r ∈ rules, r.symbol ≠ s := by
  unfold mkGrammar validateRules
  split
  · rename_i hv
    simp only [List.all_eq_true, List.mem_flatten, List.mem_map] at hv
    constructor
    · intro h; exact absurd h (by simp)
    · rintro ⟨s, hterm, ⟨r, hr, hmem⟩, hnone⟩
      have := hv s ⟨_, ⟨r, hr, rfl⟩, by
        simp only [List.mem_filter, Bool.not_eq_true']
        exact ⟨hmem, hterm⟩⟩
      simp only [List.any_eq_true, decide_eq_true_eq] at this
      obtain ⟨r', hr', heq⟩ := this
      exact (hnone r' hr' heq).elim
  · rename_i hv
    simp only [List.all_eq_true, not_forall] at hv
    constructor
    · intro _
      obtain ⟨s, hs, hno⟩ := hv
      simp only [List.mem_flatten, List.mem_map] at hs
      obtain ⟨l, ⟨r, hr, rfl⟩, hmem⟩ := hs
      simp only [List.mem_filter, Bool.not_eq_true'] at hmem
      refine ⟨s, hmem.2, ⟨r, hr, hmem.1⟩, ?_⟩
      intro r' hr' heq
      exact hno (by simp only [List.any_eq_true, decide_eq_true_eq]; exact ⟨r', hr', heq⟩)
    · intro _; rfl

/-! ### Derivations and correctness of the nullable set (C3) -/

/-- One derivation step of the context-free grammar given by `rules`:
rewrite one occurrence of a rule head into that rule's expansion. -/
def Step (rules : List (Rule μ)) (u v : List (Sym μ)) : Prop :=
  ∃ (u₁ u₂ : List (Sym μ)) (r : Rule μ), r ∈ rules ∧
    u = u₁ ++ r.symbol :: u₂ ∧ v = u₁ ++ r.expansion ++ u₂

/-- Derivations of exactly `n` steps. -/
inductive DerivesN (rules : List (Rule μ)) : Nat → List (Sym μ) → List (Sym μ) → Prop
  | refl (u : List (Sym μ)) : DerivesN rules 0 u u
  | head {n : Nat} {u v w : List (Sym μ)} :
      Step rules u v → DerivesN rules n v w → DerivesN rules (n + 1) u w

/-- Rule-level characterisation of empty derivability: a symbol derives ε
iff it heads a rule whose expansion symbols all derive ε. -/
inductive NullDeriv (rules : List (Rule μ)) : Sym μ → Prop
  | mk {r : Rule μ} : r ∈ rules → (∀ s ∈ r.expansion, NullDeriv rules s) →
      NullDeriv rules r.symbol

theorem Step.appendCtx {rules : List (Rule μ)} {u v : List (Sym μ)}
    (w x : List (Sym μ)) (h : Step rules u v) :
    Step rules (w ++ u ++ x) (w ++ v ++ x) := by
  obtain ⟨u₁, u₂, r, hr, hu, hv⟩ := h
  exact ⟨w ++ u₁, u₂ ++ x, r, hr, by simp [hu], by simp [hv]⟩

theorem DerivesN.appendSides {rules : List (Rule μ)} {n : Nat} {u v : List (Sym μ)}
    (w x : List (Sym μ)) (h : DerivesN rules n u v) :
    DerivesN rules n (w ++ u ++ x) (w ++ v ++ x) := by
  induction h with
  | refl u => exact .refl _
  | head hs _ ih => exact .head (hs.appendCtx w x) ih

theorem DerivesN.comp {rules : List (Rule μ)} {m n : Nat} {u v w : List (Sym μ)}
    (h₁ : DerivesN rules m u v) (h₂ : DerivesN rules n v w) :
    DerivesN rules (m + n) u w := by
  induction h₁ with
  | refl u => simpa using h₂
  | head hs _ ih => exact Nat.succ_add _ n ▸ .head hs (ih h₂)

theorem derivesN_nil_of_forall {rules : List (Rule μ)} :
    ∀ (α : List (Sym μ)), (∀ s ∈ α, ∃ n, DerivesN rules n [s] []) →
      ∃ n, DerivesN rules n α [] := by
  intro α
  induction α with
  | nil => exact fun _ => ⟨0, .refl _⟩
  | cons s rest ih =>
    intro h
    obtain ⟨n₁, h₁⟩ := h s (by simp)
    obtain ⟨n₂, h₂⟩ := ih (fun x hx => h x (by simp [hx]))
    have h₁' : DerivesN rules n₁ (s :: rest) rest := by
      simpa using h₁.appendSides [] rest
    exact ⟨n₁ + n₂, h₁'.comp h₂⟩

theorem nullDeriv_derives {rules : List (Rule μ)} {s : Sym μ}
    (h : NullDeriv rules s) : ∃ n, DerivesN rules n [s] [] := by
  induction h with
  | mk hr _ ih =>
    rename_i r _
    obtain ⟨n, hn⟩ := derivesN_nil_of_forall r.expansion ih
    refine ⟨n + 1, ?_⟩
    have hstep : Step rules [r.symbol] r.expansion :=
      ⟨[], [], r, hr, by simp, by simp⟩
    exact Nat.add_comm n 1 ▸ DerivesN.head hstep hn

theorem derives_nullDeriv {rules : List (Rule μ)} :
    ∀ (n : Nat) (u : List (Sym μ)), DerivesN rules n u [] →
      ∀ s ∈ u, NullDeriv rules s := by
  intro n
  induction n with
  | zero =>
    intro u h s hs
    cases h
    simp at hs
  | succ n ih =>
    intro u h s hs
    rcases h with _ | ⟨hstep, hrest⟩
    obtain ⟨u₁, u₂, r, hr, hu, hv⟩ := hstep
    subst hu hv
    have hall := ih _ hrest
    rcases List.mem_append.1 hs with h₁ | h₂
    · exact hall s (by simp [h₁])
    · rcases List.mem_cons.1 h₂ with rfl | h₃
      · exact NullDeriv.mk hr (fun x hx => hall x (by simp [hx]))
      · exact hall s (by simp [h₃])

/-! Properties of the fixed-point computation. -/

theorem passStep_pref (acc : List (Sym μ)) (r : Rule μ) :
    acc <+: passStep acc r := by
  unfold passStep
  split
  · exact List.prefix_refl _
  · split
    · exact List.prefix_append _ _
    · exact List.prefix_refl _

theorem foldl_passStep_pref :
    ∀ (l : List (Rule μ)) (acc : List (Sym μ)), acc <+: l.foldl passStep acc := by
  intro l
  induction l with
  | nil => exact fun acc => List.prefix_refl _
  | cons r rest ih =>
    intro acc
    exact (passStep_pref acc r).trans (ih (passStep acc r))

theorem passNullable_prefix (rules : List (Rule μ)) (acc : List (Sym μ)) :
    acc <+: passNullable rules acc :=
  foldl_passStep_pref rules acc

theorem passStep_nodup {acc : List (Sym μ)} (h : acc.Nodup) (r : Rule μ) :
    (passStep acc r).Nodup := by
  unfold passStep
  split
  · exact h
  · rename_i hnot
    split
    · simpa [List.nodup_append, h] using hnot
    · exact h

theorem passNullable_nodup (rules : List (Rule μ)) {acc : List (Sym μ)}
    (h : acc.Nodup) : (passNullable rules acc).Nodup := by
  unfold passNullable
  induction rules generalizing acc with
  | nil => exact h
  | cons r rest ih => exact ih (passStep_nodup h r)

theorem passStep_heads {rules : List (Rule μ)} {acc : List (Sym μ)} {r : Rule μ}
    (hr : r ∈ rules) (h : ∀ x ∈ acc, ∃ r' ∈ rules, r'.symbol = x) :
    ∀ x ∈ passStep acc r, ∃ r' ∈ rules, r'.symbol = x := by
  unfold passStep
  split
  · exact h
  · split
    · intro x hx
      rcases List.mem_append.1 hx with hx | hx
      · exact h x hx
      · simp only [List.mem_singleton] at hx
        exact ⟨r, hr, hx.symm⟩
    · exact h

theorem passNullable_heads {rules : List (Rule μ)} {acc : List (Sym μ)}
    (h : ∀ x ∈ acc, ∃ r' ∈ rules, r'.symbol = x) :
    ∀ x ∈ passNullable rules acc, ∃ r' ∈ rules, r'.symbol = x := by
  unfold passNullable
  have aux : ∀ (l : List (Rule μ)), (∀ r ∈ l, r ∈ rules) →
      ∀ (acc : List (Sym μ)), (∀ x ∈ acc, ∃ r' ∈ rules, r'.symbol = x) →
      ∀ x ∈ l.foldl passStep acc, ∃ r' ∈ rules, r'.symbol = x := by
    intro l
    induction l with
    | nil => exact fun _ acc h => h
    | cons r rest ih =>
      intro hsub acc hacc
      exact ih (fun r' hr' => hsub r' (by simp [hr'])) _
        (passStep_heads (hsub r (by simp)) hacc)
  exact aux rules (fun _ h => h) acc h

theorem passNullable_sound {rules : List (Rule μ)} {acc : List (Sym μ)}
    (h : ∀ x ∈ acc, NullDeriv rules x) :
    ∀ x ∈ passNullable rules acc, NullDeriv rules x := by
  unfold passNullable
  have aux : ∀ (l : List (Rule μ)), (∀ r ∈ l, r ∈ rules) →
      ∀ (acc : List (Sym μ)), (∀ x ∈ acc, NullDeriv rules x) →
      ∀ x ∈ l.foldl passStep acc, NullDeriv rules x := by
    intro l
    induction l with
    | nil => exact fun _ acc h => h
    | cons r rest ih =>
      intro hsub acc hacc
      refine ih (fun r' hr' => hsub r' (by simp [hr'])) _ ?_
      intro x hx
      unfold passStep at hx
      split at hx
      · exact hacc x hx
      · split at hx
        · rcases List.mem_append.1 hx with hx | hx
          · exact hacc x hx
          · simp only [List.mem_singleton] at hx
            subst hx
            rename_i hall
            simp only [List.all_eq_true, decide_eq_true_eq] at hall
            exact NullDeriv.mk (hsub r (by simp)) (fun s hs => hacc s (hall s hs))
        · exact hacc x hx
  exact aux rules (fun _ h => h) acc h

theorem mem_passStep_self {acc : List (Sym μ)} {r : Rule μ}
    (h : ∀ s ∈ r.expansion, s ∈ acc) : r.symbol ∈ passStep acc r := by
  unfold passStep
  split
  · assumption
  · rw [if_pos (by simp only [List.all_eq_true, decide_eq_true_eq]; exact h)]
    simp

theorem mem_passNullable_of_rule {rules : List (Rule μ)} {acc : List (Sym μ)}
    {r : Rule μ} (hr : r ∈ rules) (hexp : ∀ s ∈ r.expansion, s ∈ acc) :
    r.symbol ∈ passNullable rules acc := by
  obtain ⟨l₁, l₂, rfl⟩ := List.append_of_mem hr
  unfold passNullable
  rw [List.foldl_append, List.foldl_cons]
  exact (foldl_passStep_pref l₂ _).subset
    (mem_passStep_self (fun s hs => (foldl_passStep_pref l₁ acc).subset (hexp s hs)))

theorem list_length_le_of_nodup_subset {α : Type} [DecidableEq α] {l₁ l₂ : List α}
    (h₁ : l₁.Nodup) (h₂ : ∀ x ∈ l₁, x ∈ l₂) : l₁.length ≤ l₂.length := by
  calc l₁.length = l₁.toFinset.card := (List.toFinset_card_of_nodup h₁).symm
    _ ≤ l₂.toFinset.card := Finset.card_le_card (by
        intro x hx
        simp only [List.mem_toFinset] at hx ⊢
        exact h₂ x hx)
    _ ≤ l₂.length := l₂.toFinset_card_le

theorem nullLoop_stable {rules : List (Rule μ)} :
    ∀ (f : Nat) (acc : List (Sym μ)), acc.Nodup →
      (∀ x ∈ acc, ∃ r' ∈ rules, r'.symbol = x) →
      rules.length + 1 ≤ f + acc.length →
      passNullable rules (nullLoop rules f acc) = nullLoop rules f acc := by
  intro f
  induction f with
  | zero =>
    intro acc hnodup hheads hle
    exfalso
    have : acc.length ≤ rules.length := by
      have hsub : ∀ x ∈ acc, x ∈ rules.map (fun r => r.symbol) := by
        intro x hx
        obtain ⟨r', hr', h⟩ := hheads x hx
        exact List.mem_map.2 ⟨r', hr', h⟩
      simpa using list_length_le_of_nodup_subset hnodup hsub
    omega
  | succ f ih =>
    intro acc hnodup hheads hle
    show passNullable rules (nullLoop rules (f + 1) acc) = _
    unfold nullLoop
    split
    · rename_i heq
      exact heq
    · rename_i hne
      refine ih _ (passNullable_nodup rules hnodup) (passNullable_heads hheads) ?_
      obtain ⟨extra, hext⟩ := passNullable_prefix rules acc
      have hextra : extra ≠ [] := by
        intro h
        exact hne (by rw [← hext, h, List.append_nil])
      have : 1 ≤ extra.length := by
        cases extra with
        | nil => exact absurd rfl hextra
        | cons _ _ => simp
      have hlen : (passNullable rules acc).length = acc.length + extra.length := by
        rw [← hext, List.length_append]
      omega

theorem findNullables_closed {rules : List (Rule μ)} {r : Rule μ}
    (hr : r ∈ rules) (hexp : ∀ s ∈ r.expansion, s ∈ findNullables rules) :
    r.symbol ∈ findNullables rules := by
  have hstab := @nullLoop_stable μ _ rules (rules.length + 1) []
    List.nodup_nil (by simp) (by simp)
  unfold findNullables
  rw [← hstab]
  exact mem_passNullable_of_rule hr hexp

theorem findNullables_sound {rules : List (Rule μ)} :
    ∀ x ∈ findNullables rules, NullDeriv rules x := by
  unfold findNullables
  have aux : ∀ (f : Nat) (acc : List (Sym μ)), (∀ x ∈ acc, NullDeriv rules x) →
      ∀ x ∈ nullLoop rules f acc, NullDeriv rules x := by
    intro f
    induction f with
    | zero => exact fun acc h => h
    | succ f ih =>
      intro acc hacc
      unfold nullLoop
      split
      · exact hacc
      · exact ih _ (passNullable_sound hacc)
  exact aux _ [] (by simp)

theorem findNullables_complete {rules : List (Rule μ)} {s : Sym μ}
    (h : NullDeriv rules s) : s ∈ findNullables rules := by
  induction h with
  | mk hr _ ih => exact findNullables_closed hr ih

/-- C3: for every grammar accepted by construction, a symbol is in the
computed nullable set iff it derives the empty sequence (in the standard
sentential-rewriting sense). -/
theorem nullable_iff_derives_empty {rules : List (Rule μ)} {start : Sym μ}
    {g : Grammar μ} (hg : mkGrammar rules start = some g) (s : Sym μ) :
    s ∈ g.nullable ↔ ∃ n, DerivesN g.rules n [s] [] := by
  have hrules : g.rules = rules ∧ g.nullable = findNullables rules := by
    unfold mkGrammar at hg
    split at hg
    · cases hg; exact ⟨rfl, rfl⟩
    · cases hg
  obtain ⟨h₁, h₂⟩ := hrules
  rw [h₁, h₂]
  constructor
  · intro h
    exact nullDeriv_derives (findNullables_sound s h)
  · rintro ⟨n, hn⟩
    exact findNullables_complete (derives_nullDeriv n [s] hn s (by simp))

/-- Concrete chained-nullable grammar for the C3 witness:
`A → B`, `B → ε`. -/
def rulesC3 : List (Rule Char) :=
  [⟨Sym.nt ['A'], [Sym.nt ['B']]⟩, ⟨Sym.nt ['B'], []⟩]

/-- The grammar value `mkGrammar` produces for `rulesC3`. -/
def gC3 : Grammar Char :=
  ⟨rulesC3, Sym.nt ['A'], findNullables rulesC3⟩

/-- Witness for C3: the construction hypothesis is discharged on the chained
grammar `A → B`, `B → ε`, and closure indeed reaches `A`. -/
theorem nullable_iff_derives_empty_witness :
    mkGrammar rulesC3 (Sym.nt ['A']) = some gC3 ∧
      (Sym.nt ['A'] ∈ gC3.nullable ↔ ∃ n, DerivesN gC3.rules n [Sym.nt ['A']] []) :=
  ⟨by decide,
    @nullable_iff_derives_empty Char _ rulesC3 (Sym.nt ['A']) gC3 (by decide)
      (Sym.nt ['A'])⟩

/-! ### The Earley engine: `Item` and `Parser` of parser.py -/

/-- Embeds the `Item` class of parser.py: a rule, the origin column
(`start`) and the dot offset (`position`).  `Item.__eq__` compares exactly
these three fields, which is structural equality of this structure. -/
structure EItem (μ : Type) where
  rule : Rule μ
  start : Nat
  position : Nat
deriving DecidableEq, Repr

instance : Inhabited (EItem μ) := ⟨⟨⟨Sym.nt [], []⟩, 0, 0⟩⟩

/-- `Item.is_partial_parse`: dot at the end and origin 0. -/
def EItem.isPartial {μ : Type} (it : EItem μ) : Bool :=
  it.position = it.rule.expansion.length && it.start = 0

/-- `Item.is_full_parse`: a partial parse whose head is the start symbol. -/
def EItem.isFull {μ : Type} [DecidableEq μ] (it : EItem μ) (startSym : Sym μ) : Bool :=
  it.isPartial && it.rule.symbol = startSym

/-- `Item.can_match`: the dot is not at the end and the next expected symbol
equals `s`. -/
def EItem.canMatch {μ : Type} [DecidableEq μ] (it : EItem μ) (s : Sym μ) : Bool :=
  it.position < it.rule.expansion.length &&
    it.rule.expansion.getD it.position (Sym.nt []) = s

/-- The advanced copy `Item(rule, start, position + 1)`. -/
def EItem.adv {μ : Type} (it : EItem μ) : EItem μ :=
  ⟨it.rule, it.start, it.position + 1⟩

/-- `Parser.add_item`: append the new item only when no structurally equal
item already occupies the column. -/
def addItem (col : List (EItem μ)) (it : EItem μ) : List (EItem μ) :=
  if it ∈ col then col else col ++ [it]

/-- Add an item to the column at index `c` of the chart. -/
def addItemAt (states : List (List (EItem μ))) (c : Nat) (it : EItem μ) :
    List (List (EItem μ)) :=
  states.set c (addItem (states.getD c []) it)

/-- Generic index-based sweep over a growing structure: process position
`j`, then `j + 1`, … until the index catches up with the (possibly growing)
length.  This models Python's `for item in state` over a list that is
appended to during the iteration: newly appended items are still visited. -/
def sweep {σ : Type} (len : σ → Nat) (step : Nat → σ → σ) :
    Nat → Nat → σ → σ
  | 0, _, s => s
  | f + 1, j, s => if j < len s then sweep len step f (j + 1) (step j s) else s

variable {τ : Type}

/-- The prediction loop (`for rule in self.get_predictions(symbol)`): one
new item per rule headed by `B`, at dot 0 and origin `idx`, added to the
current column in rule order. -/
def predictAll (g : Grammar μ) (idx : Nat) (B : Sym μ)
    (states : List (List (EItem μ))) : List (List (EItem μ)) :=
  g.rules.foldl
    (fun st r => if r.symbol = B then addItemAt st idx ⟨r, idx, 0⟩ else st)
    states

/-- Processing of a single chart item: the completion / scan / prediction
(plus nullable closure) body of the main loop of `Parser.parse`.  The
completion loop re-reads the origin column while iterating, exactly as the
Python generator `get_advancing_items` does when items are appended to the
very column it walks (`item.start == idx`).  `mf` is the terminal matcher
(`symbol.token.match`). -/
def applyItem (g : Grammar μ) (mf : μ → τ → Bool) (token : Option τ)
    (idx : Nat) (cfuel : Nat) (item : EItem μ)
    (states : List (List (EItem μ))) : List (List (EItem μ)) :=
  if item.position = item.rule.expansion.length then
    sweep (fun st => (st.getD item.start []).length)
      (fun j st =>
        if ((st.getD item.start []).getD j default).canMatch item.rule.symbol then
          addItemAt st idx ((st.getD item.start []).getD j default).adv
        else st)
      cfuel 0 states
  else
    match item.rule.expansion.getD item.position (Sym.nt []) with
    | Sym.t m =>
      match token with
      | some tk => if mf m tk then addItemAt states (idx + 1) item.adv else states
      | none => states
    | Sym.nt nm =>
      if Sym.nt nm ∈ g.nullable then
        addItemAt (predictAll g idx (Sym.nt nm) states) idx item.adv
      else predictAll g idx (Sym.nt nm) states

/-- The per-column pass of `Parser.parse`: iterate over the (growing)
column at index `idx`, processing each item in order. -/
def processColumn (g : Grammar μ) (mf : μ → τ → Bool) (token : Option τ)
    (idx : Nat) (cfuel : Nat) (states : List (List (EItem μ))) :
    List (List (EItem μ)) :=
  sweep (fun st => (st.getD idx []).length)
    (fun j st => applyItem g mf token idx cfuel ((st.getD idx []).getD j default) st)
    cfuel 0 states

/-- The longest expansion length among the grammar's rules. -/
def maxExpLen (g : Grammar μ) : Nat :=
  g.rules.foldr (fun r m => max r.expansion.length m) 0

/-- Fuel that provably lets every column sweep run to completion: the
number of distinct valid items, plus the number of initial seed items. -/
def chartFuel (g : Grammar μ) (n : Nat) : Nat :=
  g.rules.length + g.rules.length * (maxExpLen g + 1) * (n + 1)

/-- The seed items of `Parser.parse`: one `Item(rule, 0)` per rule headed
by the start symbol, appended in rule order (note: by plain `append`, NOT
through `add_item`). -/
def seedItems (g : Grammar μ) (startSym : Sym μ) : List (EItem μ) :=
  g.rules.foldl
    (fun acc r => if r.symbol = startSym then acc ++ [⟨r, 0, 0⟩] else acc) []

/-- The chart initialisation of `Parser.parse`: `n + 1` empty columns, with
column 0 holding the seed items. -/
def initChart (g : Grammar μ) (startSym : Sym μ) (n : Nat) :
    List (List (EItem μ)) :=
  (List.range (n + 1)).map (fun i => if i = 0 then seedItems g startSym else [])

/-- The chart-building part of `Parser.parse` with the default start
symbol: columns are processed in increasing order; the token for column
`idx` is `input[idx]` when it exists and `None` at the final column. -/
def parseChart (g : Grammar μ) (mf : μ → τ → Bool) (input : List τ) :
    List (List (EItem μ)) :=
  (List.range (input.length + 1)).foldl
    (fun st idx => processColumn g mf input[idx]? idx (chartFuel g input.length) st)
    (initChart g g.start input.length)

/-- What the reporting epilogue of `Parser.parse` (lines 143–154) prints:
`fullItems` collects every item printed as "Fully parsed", `isFullyParsed`
is the flag, and `partialItems` collects every item printed as
"Partial parse:" (the walk over `self.states[::-1]`, i.e. all columns from
the last down to the first, which runs only when the flag stayed false). -/
structure Report (μ : Type) where
  fullItems : List (EItem μ)
  isFullyParsed : Bool
  partialItems : List (EItem μ)
deriving DecidableEq, Repr

/-- The result-reporting epilogue of `Parser.parse`. -/
def reportOf (states : List (List (EItem μ))) (startSym : Sym μ) : Report μ :=
  let fulls := (states.getLastD []).filter (fun it => it.isFull startSym)
  if fulls.isEmpty then
    ⟨[], false,
      (states.reverse.map (fun col => col.filter (fun it => it.isFull startSym))).flatten⟩
  else ⟨fulls, true, []⟩

/-- `Parser.parse` in full: build the chart, then report. -/
def parseReport (g : Grammar μ) (mf : μ → τ → Bool) (input : List τ) : Report μ :=
  reportOf (parseChart g mf input) g.start

/-! ### C1: what the result reporting actually surfaces -/

/-- Claim C1 exactly as stated: when the final column holds full-parse
items, acceptance surfaces exactly the FIRST of them (in column iteration
order); when it holds none but an earlier column does, exactly the first
full-parse item found walking columns from the last to the first is
surfaced as the best partial parse.  (The claim's third clause — a distinct
`NoParse` outcome — has no counterpart in the code's output at all.) -/
def c1ClaimStatement (g : Grammar μ) (mf : μ → τ → Bool) (input : List τ) : Prop :=
  ((∃ it ∈ (parseChart g mf input).getLastD [], it.isFull g.start = true) →
    (parseReport g mf input).fullItems =
      [(((parseChart g mf input).getLastD []).filter
          (fun it => it.isFull g.start)).headD default]) ∧
  ((¬ ∃ it ∈ (parseChart g mf input).getLastD [], it.isFull g.start = true) →
    (((parseChart g mf input).reverse.map
        (fun col => col.filter (fun it => it.isFull g.start))).flatten ≠ [] →
      (parseReport g mf input).partialItems =
        [(((parseChart g mf input).reverse.map
            (fun col => col.filter (fun it => it.isFull g.start))).flatten).headD default]))

/-- An ambiguous grammar: `S → 'a'`, `S → A`, `A → 'a'`.  Both `S`-rules
yield a full parse of the input `"a"`. -/
def rulesAmb : List (Rule Char) :=
  [⟨Sym.nt ['S'], [Sym.t 'a']⟩, ⟨Sym.nt ['S'], [Sym.nt ['A']]⟩,
   ⟨Sym.nt ['A'], [Sym.t 'a']⟩]

/-- The grammar value `Grammar.__init__` builds from `rulesAmb`. -/
def gAmb : Grammar Char := ⟨rulesAmb, Sym.nt ['S'], findNullables rulesAmb⟩

/-- Counterexample to C1 as stated: on the ambiguous grammar `gAmb` and
input `"a"`, the final column holds the two full-parse items
`S → 'a' •` and `S → A •`, and the code surfaces BOTH of them, not exactly
the first. -/
theorem c1_counterexample :
    ¬ c1ClaimStatement gAmb (fun m c => m = c) ['a'] := by
  unfold c1ClaimStatement
  decide

/-- C1 amended: the reporting epilogue surfaces EVERY full-parse item of
the final column when at least one exists (setting the accepted flag);
otherwise it surfaces every full-parse item of every column, walking
columns from the last down to the first; there is no separate `NoParse`
discriminant — when no column holds a full-parse item, the flag is false
and the partial list is simply empty. -/
theorem parse_report_surfaces_all (g : Grammar μ) (mf : μ → τ → Bool)
    (input : List τ) :
    ((parseReport g mf input).isFullyParsed = true ↔
      ∃ it ∈ (parseChart g mf input).getLastD [], it.isFull g.start = true) ∧
    (∀ it : EItem μ, it ∈ (parseReport g mf input).fullItems ↔
      (it ∈ (parseChart g mf input).getLastD [] ∧ it.isFull g.start = true ∧
        (parseReport g mf input).isFullyParsed = true)) ∧
    ((parseReport g mf input).isFullyParsed = false →
      ∀ it : EItem μ, it ∈ (parseReport g mf input).partialItems ↔
        ∃ col ∈ parseChart g mf input, it ∈ col ∧ it.isFull g.start = true) := by
  unfold parseReport reportOf
  generalize parseChart g mf input = chart
  by_cases hemp :
      ((chart.getLastD []).filter (fun it => it.isFull g.start)).isEmpty = true
  · rw [if_pos hemp]
    simp only [List.isEmpty_iff, List.filter_eq_nil_iff] at hemp
    refine ⟨⟨(fun h => nomatch h), ?_⟩, ?_, ?_⟩
    · rintro ⟨it, hit, hfull⟩
      exact ((hemp it hit) hfull).elim
    · intro it
      refine ⟨fun h => absurd h (List.not_mem_nil it), ?_⟩
      rintro ⟨hit, hfull, _⟩
      exact ((hemp it hit) hfull).elim
    · intro _ it
      simp only [List.mem_flatten, List.mem_map, List.mem_reverse]
      constructor
      · rintro ⟨l, ⟨col, hcol, rfl⟩, hmem⟩
        rcases List.mem_filter.1 hmem with ⟨h₁, h₂⟩
        exact ⟨col, hcol, h₁, h₂⟩
      · rintro ⟨col, hcol, h₁, h₂⟩
        exact ⟨_, ⟨col, hcol, rfl⟩, List.mem_filter.2 ⟨h₁, h₂⟩⟩
  · rw [if_neg hemp]
    simp only [List.isEmpty_iff] at hemp
    refine ⟨⟨fun _ => ?_, fun _ => rfl⟩, ?_, (fun h => nomatch h)⟩
    · rcases List.exists_mem_of_ne_nil _ hemp with ⟨it, hit⟩
      rcases List.mem_filter.1 hit with ⟨h₁, h₂⟩
      exact ⟨it, h₁, h₂⟩
    · intro it
      rw [List.mem_filter]
      exact ⟨fun h => ⟨h.1, h.2, rfl⟩, fun h => ⟨h.1, h.2.1⟩⟩

/-! ### Chart growth and sweep machinery -/

/-- `s` grows into `t`: same number of columns, and every column of `s` is
a prefix of the corresponding column of `t`.  All chart updates of the
engine only append items to columns. -/
def Grows (s t : List (List (EItem μ))) : Prop :=
  s.length = t.length ∧ ∀ k, (s.getD k []) <+: (t.getD k [])

theorem Grows.refl (s : List (List (EItem μ))) : Grows s s :=
  ⟨rfl, fun _ => List.prefix_refl _⟩

theorem Grows.trans {s t u : List (List (EItem μ))}
    (h₁ : Grows s t) (h₂ : Grows t u) : Grows s u :=
  ⟨h₁.1.trans h₂.1, fun k => (h₁.2 k).trans (h₂.2 k)⟩

theorem addItem_prefix (col : List (EItem μ)) (it : EItem μ) :
    col <+: addItem col it := by
  unfold addItem
  split
  · exact List.prefix_refl _
  · exact List.prefix_append _ _

theorem mem_addItem_self (col : List (EItem μ)) (it : EItem μ) :
    it ∈ addItem col it := by
  unfold addItem
  split
  · assumption
  · simp

theorem addItem_nodup {col : List (EItem μ)} (h : col.Nodup) (it : EItem μ) :
    (addItem col it).Nodup := by
  unfold addItem
  split
  · exact h
  · rename_i hnot
    simpa [List.nodup_append, h] using hnot

theorem getD_set_self {α : Type} (l : List α) (c : Nat) (a d : α)
    (hc : c < l.length) : (l.set c a).getD c d = a := by
  simp [List.getD, List.getElem?_set_self', hc]

theorem getD_set_ne {α : Type} (l : List α) (c k : Nat) (a d : α)
    (h : k ≠ c) : (l.set c a).getD k d = l.getD k d := by
  simp [List.getD, List.getElem?_set_ne (fun hh => h hh.symm)]

theorem addItemAt_grows (states : List (List (EItem μ))) (c : Nat) (it : EItem μ) :
    Grows states (addItemAt states c it) := by
  refine ⟨by simp [addItemAt], fun k => ?_⟩
  unfold addItemAt
  by_cases hk : k = c
  · subst hk
    by_cases hc : k < states.length
    · rw [getD_set_self _ _ _ _ hc]
      exact addItem_prefix _ _
    · rw [List.set_eq_of_length_le (by omega)]
  · rw [getD_set_ne _ _ _ _ _ hk]

theorem mem_addItemAt_self (states : List (List (EItem μ))) (c : Nat)
    (it : EItem μ) (hc : c < states.length) :
    it ∈ (addItemAt states c it).getD c [] := by
  unfold addItemAt
  rw [getD_set_self _ _ _ _ hc]
  exact mem_addItem_self _ _

theorem addItemAt_getD_ne (states : List (List (EItem μ))) (c k : Nat)
    (it : EItem μ) (h : k ≠ c) :
    (addItemAt states c it).getD k [] = states.getD k [] := by
  unfold addItemAt
  rw [getD_set_ne _ _ _ _ _ h]

theorem addItemAt_length (states : List (List (EItem μ))) (c : Nat)
    (it : EItem μ) : (addItemAt states c it).length = states.length := by
  simp [addItemAt]

/-- A completed sweep preserves any invariant its steps preserve (the step
is only ever applied at in-range positions). -/
theorem sweep_inv {σ : Type} (len : σ → Nat) (step : Nat → σ → σ)
    (Inv : σ → Prop)
    (hstep : ∀ j s, j < len s → Inv s → Inv (step j s)) :
    ∀ (f j : Nat) (s : σ), Inv s → Inv (sweep len step f j s) := by
  intro f
  induction f with
  | zero => exact fun j s h => h
  | succ f ih =>
    intro j s h
    unfold sweep
    split
    · exact ih (j + 1) _ (hstep j s (by assumption) h)
    · exact h

/-- A sweep only moves along a preorder `R` respected by its steps. -/
theorem sweep_rel {σ : Type} (len : σ → Nat) (step : Nat → σ → σ)
    (R : σ → σ → Prop) (hrefl : ∀ s, R s s)
    (htrans : ∀ a b c, R a b → R b c → R a c)
    (hstep : ∀ j s, R s (step j s)) :
    ∀ (f j : Nat) (s : σ), R s (sweep len step f j s) := by
  intro f
  induction f with
  | zero => exact fun j s => hrefl s
  | succ f ih =>
    intro j s
    unfold sweep
    split
    · exact htrans _ _ _ (hstep j s) (ih (j + 1) (step j s))
    · exact hrefl s

/-- When the fuel dominates the final length, every position below the
final length really was processed: for each such `k` there is an
intermediate state `s'` at which `step k` fired, with the rest of the sweep
growing out of it. -/
theorem sweep_reached {σ : Type} (len : σ → Nat) (step : Nat → σ → σ)
    (R : σ → σ → Prop) (hrefl : ∀ s, R s s)
    (htrans : ∀ a b c, R a b → R b c → R a c)
    (hstep : ∀ j s, R s (step j s)) :
    ∀ (f j : Nat) (s : σ) (k : Nat), j ≤ k →
      k < len (sweep len step f j s) →
      len (sweep len step f j s) ≤ j + f →
      ∃ s', R s s' ∧ k < len s' ∧ R (step k s') (sweep len step f j s) := by
  intro f
  induction f with
  | zero =>
    intro j s k hjk hk hle
    unfold sweep at hk hle
    omega
  | succ f ih =>
    intro j s k hjk hk hle
    have hunf : sweep len step (f + 1) j s =
        if j < len s then sweep len step f (j + 1) (step j s) else s := rfl
    by_cases hj : j < len s
    · rw [hunf, if_pos hj] at hk hle ⊢
      rcases Nat.eq_or_lt_of_le hjk with rfl | hlt
      · exact ⟨s, hrefl s, hj, sweep_rel len step R hrefl htrans hstep f (j + 1) (step j s)⟩
      · obtain ⟨s', h1, h2, h3⟩ := ih (j + 1) (step j s) k hlt hk (by omega)
        exact ⟨s', htrans _ _ _ (hstep j s) h1, h2, h3⟩
    · rw [hunf, if_neg hj] at hk hle ⊢
      omega

theorem IsPrefix.getD_eq {l₁ l₂ : List (EItem μ)} (h : l₁ <+: l₂) {k : Nat}
    (hk : k < l₁.length) : l₁.getD k default = l₂.getD k default := by
  obtain ⟨t, rfl⟩ := h
  simp [List.getD, List.getElem?_append_left hk]

theorem Grows.mem {s t : List (List (EItem μ))} (h : Grows s t) {k : Nat}
    {it : EItem μ} (hmem : it ∈ s.getD k []) : it ∈ t.getD k [] :=
  (h.2 k).subset hmem

theorem foldl_grows {β : Type}
    (f : List (List (EItem μ)) → β → List (List (EItem μ)))
    (hf : ∀ s b, Grows s (f s b)) :
    ∀ (l : List β) (s : List (List (EItem μ))), Grows s (l.foldl f s) := by
  intro l
  induction l with
  | nil => exact fun s => Grows.refl s
  | cons b rest ih => exact fun s => (hf s b).trans (ih (f s b))

theorem applyItem_grows (g : Grammar μ) (mf : μ → τ → Bool) (token : Option τ)
    (idx cfuel : Nat) (item : EItem μ) (states : List (List (EItem μ))) :
    Grows states (applyItem g mf token idx cfuel item states) := by
  unfold applyItem
  split
  · refine sweep_rel _ _ Grows Grows.refl (fun a b c => Grows.trans) ?_ cfuel 0 states
    intro j s
    split
    · exact addItemAt_grows _ _ _
    · exact Grows.refl s
  · split
    · split
      · split
        · exact addItemAt_grows _ _ _
        · exact Grows.refl _
      · exact Grows.refl _
    · have hpred : ∀ (B : Sym μ) (s : List (List (EItem μ))),
          Grows s (predictAll g idx B s) := by
        intro B s
        refine foldl_grows _ ?_ g.rules s
        intro s r
        split
        · exact addItemAt_grows _ _ _
        · exact Grows.refl s
      split
      · exact (hpred _ _).trans (addItemAt_grows _ _ _)
      · exact hpred _ _

theorem processColumn_grows (g : Grammar μ) (mf : μ → τ → Bool)
    (token : Option τ) (idx cfuel : Nat) (states : List (List (EItem μ))) :
    Grows states (processColumn g mf token idx cfuel states) :=
  sweep_rel _ _ Grows Grows.refl (fun a b c => Grows.trans)
    (fun j s => applyItem_grows g mf token idx cfuel _ s) cfuel 0 states

/-- Processing an item only touches the current column and the next one. -/
theorem applyItem_getD_ne (g : Grammar μ) (mf : μ → τ → Bool) (token : Option τ)
    (idx cfuel : Nat) (item : EItem μ) (states : List (List (EItem μ)))
    {k : Nat} (h1 : k ≠ idx) (h2 : k ≠ idx + 1) :
    (applyItem g mf token idx cfuel item states).getD k [] = states.getD k [] := by
  unfold applyItem
  split
  · refine sweep_inv _ _ (fun st => st.getD k [] = states.getD k []) ?_ cfuel 0 states rfl
    intro j s _ hs
    split
    · rw [addItemAt_getD_ne _ _ _ _ h1]; exact hs
    · exact hs
  · split
    · split
      · split
        · exact addItemAt_getD_ne _ _ _ _ h2
        · rfl
      · rfl
    · have hpred : ∀ (B : Sym μ) (l : List (Rule μ)) (st : List (List (EItem μ))),
          (l.foldl (fun st r => if r.symbol = B then addItemAt st idx ⟨r, idx, 0⟩
            else st) st).getD k [] = st.getD k [] := by
        intro B l
        induction l with
        | nil => exact fun st => rfl
        | cons r rest ih =>
          intro st
          rw [List.foldl_cons, ih]
          split
          · exact addItemAt_getD_ne _ _ _ _ h1
          · rfl
      split
      · rw [addItemAt_getD_ne _ _ _ _ h1]
        exact hpred _ _ _
      · exact hpred _ _ _

/-- A column below the one being processed is never modified. -/
theorem processColumn_getD_lt (g : Grammar μ) (mf : μ → τ → Bool)
    (token : Option τ) (idx cfuel : Nat) (states : List (List (EItem μ)))
    {k : Nat} (h1 : k ≠ idx) (h2 : k ≠ idx + 1) :
    (processColumn g mf token idx cfuel states).getD k [] = states.getD k [] := by
  refine sweep_inv _ _ (fun st => st.getD k [] = states.getD k []) ?_ cfuel 0 states rfl
  intro j s _ hs
  rw [applyItem_getD_ne g mf token idx cfuel _ s h1 h2]
  exact hs

/-! ### Validity invariants and fuel sufficiency -/

/-- Validity of a chart item for a grammar and input length `n`: its rule
belongs to the grammar, its origin is a real input offset, and its dot is
in range. -/
def ItemOK (g : Grammar μ) (n : Nat) (it : EItem μ) : Prop :=
  it.rule ∈ g.rules ∧ it.start ≤ n ∧ it.position ≤ it.rule.expansion.length

/-- The number of seed items initially placed in column `i`. -/
def seedLen (g : Grammar μ) (i : Nat) : Nat :=
  if i = 0 then (seedItems g g.start).length else 0

/-- Invariant of a single column: all items valid, and past the initial
`k` seed entries the column is duplicate-free and disjoint from the seeds
(everything after the seeds went through `add_item`). -/
def ColOK (g : Grammar μ) (n k : Nat) (col : List (EItem μ)) : Prop :=
  (∀ it ∈ col, ItemOK g n it) ∧ k ≤ col.length ∧
    (col.drop k).Nodup ∧ ∀ it ∈ col.drop k, it ∉ col.take k

/-- Invariant of the whole chart. -/
def ChartInv (g : Grammar μ) (n : Nat) (states : List (List (EItem μ))) : Prop :=
  states.length = n + 1 ∧ ∀ i, ColOK g n (seedLen g i) (states.getD i [])

theorem ColOK_addItem {g : Grammar μ} {n k : Nat} {col : List (EItem μ)}
    (h : ColOK g n k col) {it : EItem μ} (hit : ItemOK g n it) :
    ColOK g n k (addItem col it) := by
  obtain ⟨hOK, hk, hnd, hdisj⟩ := h
  unfold addItem
  split
  · exact ⟨hOK, hk, hnd, hdisj⟩
  · rename_i hnot
    refine ⟨?_, by simp; omega, ?_, ?_⟩
    · intro x hx
      rcases List.mem_append.1 hx with hx | hx
      · exact hOK x hx
      · simp only [List.mem_singleton] at hx; subst hx; exact hit
    · rw [List.drop_append_of_le_length hk]
      rw [List.nodup_append]
      exact ⟨hnd, List.nodup_singleton _,
        fun x hx => by simp; rintro rfl; exact hnot (List.drop_subset k col hx)⟩
    · rw [List.drop_append_of_le_length hk, List.take_append_of_le_length hk]
      intro x hx
      rcases List.mem_append.1 hx with hx | hx
      · exact hdisj x hx
      · simp only [List.mem_singleton] at hx; subst hx
        intro hmem
        exact hnot (List.take_subset k col hmem)

theorem ChartInv_addItemAt {g : Grammar μ} {n : Nat}
    {states : List (List (EItem μ))} (h : ChartInv g n states) (c : Nat)
    {it : EItem μ} (hit : ItemOK g n it) :
    ChartInv g n (addItemAt states c it) := by
  obtain ⟨hlen, hcols⟩ := h
  refine ⟨by rw [addItemAt_length]; exact hlen, ?_⟩
  intro i
  by_cases hic : i = c
  · subst hic
    by_cases hc : i < states.length
    · unfold addItemAt
      rw [getD_set_self _ _ _ _ hc]
      exact ColOK_addItem (hcols i) hit
    · unfold addItemAt
      rw [List.set_eq_of_length_le (by omega)]
      exact hcols i
  · rw [addItemAt_getD_ne _ _ _ _ hic]
    exact hcols i

theorem maxExpLen_ge {g : Grammar μ} {r : Rule μ} (h : r ∈ g.rules) :
    r.expansion.length ≤ maxExpLen g := by
  unfold maxExpLen
  have aux : ∀ l : List (Rule μ), r ∈ l →
      r.expansion.length ≤ l.foldr (fun r m => max r.expansion.length m) 0 := by
    intro l
    induction l with
    | nil => intro hh; cases hh
    | cons r' rest ih =>
      intro hh
      rcases List.mem_cons.1 hh with rfl | h'
      · exact Nat.le_max_left _ _
      · exact (ih h').trans (Nat.le_max_right _ _)
  exact aux g.rules h

/-- An injective numeric code for valid items. -/
def itemCode (g : Grammar μ) (n : Nat) (it : EItem μ) : Nat :=
  it.start + (n + 1) * (it.position + (maxExpLen g + 1) * (g.rules.indexOf it.rule))

theorem itemCode_lt {g : Grammar μ} {n : Nat} {it : EItem μ}
    (h : ItemOK g n it) :
    itemCode g n it < (n + 1) * ((maxExpLen g + 1) * g.rules.length) := by
  obtain ⟨hrule, hstart, hpos⟩ := h
  have hidx : g.rules.indexOf it.rule < g.rules.length :=
    List.indexOf_lt_length.2 hrule
  have hL : it.position < maxExpLen g + 1 :=
    Nat.lt_succ_of_le (hpos.trans (maxExpLen_ge hrule))
  unfold itemCode
  have h1 : it.position + (maxExpLen g + 1) * (g.rules.indexOf it.rule) <
      (maxExpLen g + 1) * g.rules.length := by
    calc it.position + (maxExpLen g + 1) * (g.rules.indexOf it.rule)
        < (maxExpLen g + 1) + (maxExpLen g + 1) * (g.rules.indexOf it.rule) := by omega
      _ = (maxExpLen g + 1) * (g.rules.indexOf it.rule + 1) := by ring
      _ ≤ (maxExpLen g + 1) * g.rules.length := Nat.mul_le_mul_left _ hidx
  calc it.start + (n + 1) * (it.position + (maxExpLen g + 1) * (g.rules.indexOf it.rule))
      < (n + 1) + (n + 1) * (it.position + (maxExpLen g + 1) * (g.rules.indexOf it.rule)) := by
        omega
    _ = (n + 1) * ((it.position + (maxExpLen g + 1) * (g.rules.indexOf it.rule)) + 1) := by
        ring
    _ ≤ (n + 1) * ((maxExpLen g + 1) * g.rules.length) := Nat.mul_le_mul_left _ h1

theorem itemCode_inj {g : Grammar μ} {n : Nat} {it₁ it₂ : EItem μ}
    (h₁ : ItemOK g n it₁) (h₂ : ItemOK g n it₂)
    (h : itemCode g n it₁ = itemCode g n it₂) : it₁ = it₂ := by
  obtain ⟨hr₁, hs₁, hp₁⟩ := h₁
  obtain ⟨hr₂, hs₂, hp₂⟩ := h₂
  unfold itemCode at h
  have hstart : it₁.start = it₂.start := by
    have := congrArg (fun x => x % (n + 1)) h
    simpa [Nat.add_mul_mod_self_left, Nat.mod_eq_of_lt (Nat.lt_succ_of_le hs₁),
      Nat.mod_eq_of_lt (Nat.lt_succ_of_le hs₂)] using this
  have hrest : it₁.position + (maxExpLen g + 1) * (g.rules.indexOf it₁.rule) =
      it₂.position + (maxExpLen g + 1) * (g.rules.indexOf it₂.rule) := by
    have := congrArg (fun x => x / (n + 1)) h
    simpa [Nat.add_mul_div_left _ _ (Nat.succ_pos n),
      Nat.div_eq_of_lt (Nat.lt_succ_of_le hs₁),
      Nat.div_eq_of_lt (Nat.lt_succ_of_le hs₂)] using this
  have hP₁ : it₁.position < maxExpLen g + 1 :=
    Nat.lt_succ_of_le (hp₁.trans (maxExpLen_ge hr₁))
  have hP₂ : it₂.position < maxExpLen g + 1 :=
    Nat.lt_succ_of_le (hp₂.trans (maxExpLen_ge hr₂))
  have hpos : it₁.position = it₂.position := by
    have := congrArg (fun x => x % (maxExpLen g + 1)) hrest
    simpa [Nat.add_mul_mod_self_left, Nat.mod_eq_of_lt hP₁,
      Nat.mod_eq_of_lt hP₂] using this
  have hidx : g.rules.indexOf it₁.rule = g.rules.indexOf it₂.rule := by
    have := congrArg (fun x => x / (maxExpLen g + 1)) hrest
    simpa [Nat.add_mul_div_left _ _ (Nat.succ_pos (maxExpLen g)),
      Nat.div_eq_of_lt hP₁, Nat.div_eq_of_lt hP₂] using this
  have hrule : it₁.rule = it₂.rule := by
    have e₁ := List.getElem_indexOf (List.indexOf_lt_length.2 hr₁)
    have e₂ := List.getElem_indexOf (List.indexOf_lt_length.2 hr₂)
    rw [← e₁, ← e₂]
    congr 1
  cases it₁; cases it₂
  simp_all

theorem ColOK_length {g : Grammar μ} {n k : Nat} {col : List (EItem μ)}
    (h : ColOK g n k col) :
    col.length ≤ k + (n + 1) * ((maxExpLen g + 1) * g.rules.length) := by
  obtain ⟨hOK, hk, hnd, _⟩ := h
  have hdropOK : ∀ it ∈ col.drop k, ItemOK g n it :=
    fun it hit => hOK it (List.drop_subset k col hit)
  have hmapnd : ((col.drop k).map (itemCode g n)).Nodup :=
    List.Nodup.map_on
      (fun x hx y hy hxy => itemCode_inj (hdropOK x hx) (hdropOK y hy) hxy) hnd
  have hsub : ∀ x ∈ (col.drop k).map (itemCode g n),
      x ∈ List.range ((n + 1) * ((maxExpLen g + 1) * g.rules.length)) := by
    intro x hx
    rcases List.mem_map.1 hx with ⟨it, hit, rfl⟩
    exact List.mem_range.2 (itemCode_lt (hdropOK it hit))
  have := list_length_le_of_nodup_subset hmapnd hsub
  rw [List.length_map, List.length_drop, List.length_range] at this
  omega

theorem seedItems_length_le (g : Grammar μ) (startSym : Sym μ) :
    (seedItems g startSym).length ≤ g.rules.length := by
  unfold seedItems
  have aux : ∀ (l : List (Rule μ)) (acc : List (EItem μ)),
      (l.foldl (fun acc r =>
        if r.symbol = startSym then acc ++ [⟨r, 0, 0⟩] else acc) acc).length ≤
        acc.length + l.length := by
    intro l
    induction l with
    | nil => simp
    | cons r rest ih =>
      intro acc
      rw [List.foldl_cons]
      refine (ih _).trans ?_
      split <;> simp <;> omega
  simpa using aux g.rules []

theorem ChartInv_len_le {g : Grammar μ} {n : Nat}
    {states : List (List (EItem μ))} (h : ChartInv g n states) (i : Nat) :
    (states.getD i []).length ≤ chartFuel g n := by
  have h1 := ColOK_length (h.2 i)
  have h2 : seedLen g i ≤ g.rules.length := by
    unfold seedLen
    split
    · exact seedItems_length_le g g.start
    · omega
  unfold chartFuel
  have : g.rules.length * (maxExpLen g + 1) * (n + 1) =
      (n + 1) * ((maxExpLen g + 1) * g.rules.length) := by ring
  omega

theorem seedItems_mem (g : Grammar μ) (startSym : Sym μ) (it : EItem μ) :
    it ∈ seedItems g startSym ↔
      ∃ r ∈ g.rules, r.symbol = startSym ∧ it = ⟨r, 0, 0⟩ := by
  unfold seedItems
  have aux : ∀ (l : List (Rule μ)) (acc : List (EItem μ)),
      it ∈ l.foldl (fun acc r =>
          if r.symbol = startSym then acc ++ [⟨r, 0, 0⟩] else acc) acc ↔
        (it ∈ acc ∨ ∃ r ∈ l, r.symbol = startSym ∧ it = ⟨r, 0, 0⟩) := by
    intro l
    induction l with
    | nil => simp
    | cons r rest ih =>
      intro acc
      rw [List.foldl_cons, ih]
      by_cases hr : r.symbol = startSym
      · rw [if_pos hr]
        simp only [List.mem_append, List.mem_singleton, List.mem_cons,
          List.not_mem_nil, or_false]
        constructor
        · rintro ((h | h) | ⟨r', hr', h1, h2⟩)
          · exact Or.inl h
          · exact Or.inr ⟨r, Or.inl rfl, hr, h⟩
          · exact Or.inr ⟨r', Or.inr hr', h1, h2⟩
        · rintro (h | ⟨r', (rfl | hr'), h1, h2⟩)
          · exact Or.inl (Or.inl h)
          · exact Or.inl (Or.inr h2)
          · exact Or.inr ⟨r', hr', h1, h2⟩
      · rw [if_neg hr]
        simp only [List.mem_cons]
        constructor
        · rintro (h | ⟨r', hr', h1, h2⟩)
          · exact Or.inl h
          · exact Or.inr ⟨r', Or.inr hr', h1, h2⟩
        · rintro (h | ⟨r', (rfl | hr'), h1, h2⟩)
          · exact Or.inl h
          · exact absurd h1 hr
          · exact Or.inr ⟨r', hr', h1, h2⟩
  simpa using aux g.rules []

theorem ChartInv_predictAll {g : Grammar μ} {n : Nat}
    {states : List (List (EItem μ))} (h : ChartInv g n states)
    {idx : Nat} (B : Sym μ) (hidx : idx ≤ n) :
    ChartInv g n (predictAll g idx B states) := by
  unfold predictAll
  have aux : ∀ (l : List (Rule μ)), (∀ r ∈ l, r ∈ g.rules) →
      ∀ st, ChartInv g n st →
      ChartInv g n (l.foldl (fun st r =>
        if r.symbol = B then addItemAt st idx ⟨r, idx, 0⟩ else st) st) := by
    intro l
    induction l with
    | nil => exact fun _ st hst => hst
    | cons r rest ih =>
      intro hsub st hst
      rw [List.foldl_cons]
      refine ih (fun r' hr' => hsub r' (by simp [hr'])) _ ?_
      split
      · exact ChartInv_addItemAt hst idx ⟨hsub r (by simp), hidx, Nat.zero_le _⟩
      · exact hst
  exact aux g.rules (fun _ h => h) states h

theorem ChartInv_applyItem {g : Grammar μ} {n : Nat} (mf : μ → τ → Bool)
    (token : Option τ) {idx : Nat} (cfuel : Nat) {item : EItem μ}
    {states : List (List (EItem μ))} (h : ChartInv g n states)
    (hidx : idx ≤ n) (hit : ItemOK g n item) :
    ChartInv g n (applyItem g mf token idx cfuel item states) := by
  unfold applyItem
  split
  · refine sweep_inv _ _ (ChartInv g n) ?_ cfuel 0 states h
    intro j s hj hs
    split
    · rename_i hcm
      have hmem : (s.getD item.start []).getD j default ∈ s.getD item.start [] := by
        rw [List.getD_eq_getElem _ _ hj]
        exact List.getElem_mem hj
      have hOK := (hs.2 item.start).1 _ hmem
      have hlt : ((s.getD item.start []).getD j default).position <
          ((s.getD item.start []).getD j default).rule.expansion.length := by
        unfold EItem.canMatch at hcm
        simp only [Bool.and_eq_true, decide_eq_true_eq] at hcm
        exact hcm.1
      exact ChartInv_addItemAt hs idx ⟨hOK.1, hOK.2.1, hlt⟩
    · exact hs
  · rename_i hne
    have hlt : item.position < item.rule.expansion.length :=
      Nat.lt_of_le_of_ne hit.2.2 hne
    split
    · split
      · split
        · exact ChartInv_addItemAt h (idx + 1) ⟨hit.1, hit.2.1, hlt⟩
        · exact h
      · exact h
    · split
      · exact ChartInv_addItemAt (ChartInv_predictAll h _ hidx) idx
          ⟨hit.1, hit.2.1, hlt⟩
      · exact ChartInv_predictAll h _ hidx

theorem ChartInv_processColumn {g : Grammar μ} {n : Nat} (mf : μ → τ → Bool)
    (token : Option τ) {idx : Nat} (cfuel : Nat)
    {states : List (List (EItem μ))} (h : ChartInv g n states) (hidx : idx ≤ n) :
    ChartInv g n (processColumn g mf token idx cfuel states) := by
  refine sweep_inv _ _ (ChartInv g n) ?_ cfuel 0 states h
  intro j s hj hs
  have hmem : (s.getD idx []).getD j default ∈ s.getD idx [] := by
    rw [List.getD_eq_getElem _ _ hj]
    exact List.getElem_mem hj
  exact ChartInv_applyItem mf token cfuel hs hidx ((hs.2 idx).1 _ hmem)

theorem initChart_getD (g : Grammar μ) (startSym : Sym μ) (n i : Nat) :
    (initChart g startSym n).getD i [] =
      if i < n + 1 then (if i = 0 then seedItems g startSym else []) else [] := by
  unfold initChart
  by_cases hi : i < n + 1
  · rw [if_pos hi, List.getD_eq_getElem _ _ (by simpa using hi)]
    simp
  · rw [if_neg hi]
    exact List.getD_eq_default _ _ (by simpa using Nat.le_of_not_lt hi)

theorem ChartInv_init (g : Grammar μ) (n : Nat) :
    ChartInv g n (initChart g g.start n) := by
  constructor
  · simp [initChart]
  · intro i
    rw [initChart_getD]
    unfold seedLen
    by_cases h0 : i = 0
    · subst h0
      rw [if_pos (Nat.succ_pos n), if_pos rfl, if_pos rfl]
      refine ⟨?_, Nat.le_refl _, by simp, by simp⟩
      intro it hit
      rcases (seedItems_mem g g.start it).1 hit with ⟨r, hr, _, rfl⟩
      exact ⟨hr, Nat.zero_le _, Nat.zero_le _⟩
    · rw [if_neg h0]
      split
      · exact ⟨by simp, by simp, by simp, by simp⟩
      · exact ⟨by simp, by simp, by simp, by simp⟩

theorem ChartInv_parseChart (g : Grammar μ) (mf : μ → τ → Bool)
    (input : List τ) :
    ChartInv g input.length (parseChart g mf input) := by
  unfold parseChart
  have aux : ∀ (l : List Nat), (∀ i ∈ l, i ≤ input.length) →
      ∀ st, ChartInv g input.length st →
      ChartInv g input.length
        (l.foldl (fun st idx =>
          processColumn g mf input[idx]? idx (chartFuel g input.length) st) st) := by
    intro l
    induction l with
    | nil => exact fun _ st hst => hst
    | cons i rest ih =>
      intro hsub st hst
      rw [List.foldl_cons]
      exact ih (fun i' hi' => hsub i' (by simp [hi']))
        _ (ChartInv_processColumn mf _ _ hst (hsub i (by simp)))
  refine aux _ ?_ _ (ChartInv_init g input.length)
  intro i hi
  rw [List.mem_range] at hi
  omega

/-! ### C8: duplicate-freedom of chart columns -/

/-- Every column of the chart is free of structurally equal duplicates. -/
def NodupChart (states : List (List (EItem μ))) : Prop :=
  ∀ col ∈ states, col.Nodup

theorem NodupChart_addItemAt {states : List (List (EItem μ))}
    (h : NodupChart states) (c : Nat) (it : EItem μ) :
    NodupChart (addItemAt states c it) := by
  by_cases hc : c < states.length
  · intro col hcol
    unfold addItemAt at hcol
    rcases List.mem_or_eq_of_mem_set hcol with h1 | rfl
    · exact h col h1
    · refine addItem_nodup ?_ it
      rw [List.getD_eq_getElem _ _ hc]
      exact h _ (List.getElem_mem hc)
  · unfold addItemAt
    rw [List.set_eq_of_length_le (Nat.le_of_not_lt hc)]
    exact h

theorem NodupChart_applyItem (g : Grammar μ) (mf : μ → τ → Bool)
    (token : Option τ) (idx cfuel : Nat) (item : EItem μ)
    {states : List (List (EItem μ))} (h : NodupChart states) :
    NodupChart (applyItem g mf token idx cfuel item states) := by
  unfold applyItem
  split
  · refine sweep_inv _ _ NodupChart ?_ cfuel 0 states h
    intro j s _ hs
    split
    · exact NodupChart_addItemAt hs idx _
    · exact hs
  · split
    · split
      · split
        · exact NodupChart_addItemAt h _ _
        · exact h
      · exact h
    · have hpred : ∀ B : Sym μ, NodupChart (predictAll g idx B states) := by
        intro B
        unfold predictAll
        have aux : ∀ (l : List (Rule μ)) (st : List (List (EItem μ))),
            NodupChart st →
            NodupChart (l.foldl (fun st r =>
              if r.symbol = B then addItemAt st idx ⟨r, idx, 0⟩ else st) st) := by
          intro l
          induction l with
          | nil => exact fun st hst => hst
          | cons r rest ih =>
            intro st hst
            rw [List.foldl_cons]
            refine ih _ ?_
            split
            · exact NodupChart_addItemAt hst _ _
            · exact hst
        exact aux g.rules states h
      split
      · exact NodupChart_addItemAt (hpred _) _ _
      · exact hpred _

theorem NodupChart_processColumn (g : Grammar μ) (mf : μ → τ → Bool)
    (token : Option τ) (idx cfuel : Nat)
    {states : List (List (EItem μ))} (h : NodupChart states) :
    NodupChart (processColumn g mf token idx cfuel states) := by
  refine sweep_inv _ _ NodupChart ?_ cfuel 0 states h
  intro j s _ hs
  exact NodupChart_applyItem g mf token idx cfuel _ hs

theorem NodupChart_init (g : Grammar μ)
    (hseed : (seedItems g g.start).Nodup) (n : Nat) :
    NodupChart (initChart g g.start n) := by
  intro col hcol
  unfold initChart at hcol
  rcases List.mem_map.1 hcol with ⟨i, _, rfl⟩
  split
  · exact hseed
  · exact List.nodup_nil

/-- Claim C8 exactly as stated requires EVERY parse to keep every column
duplicate-free.  The seeding of column 0 bypasses `add_item` (plain
`append`), so a grammar whose rule list literally repeats a start rule
seeds two structurally equal items.  `S → ε` twice: -/
def rulesDup : List (Rule Char) := [⟨Sym.nt ['S'], []⟩, ⟨Sym.nt ['S'], []⟩]

/-- The grammar value `Grammar.__init__` accepts for `rulesDup` (the
duplicate rule is no dangling reference, so validation passes). -/
def gDup : Grammar Char := ⟨rulesDup, Sym.nt ['S'], findNullables rulesDup⟩

/-- Counterexample to C8 as stated: parsing the empty input with `gDup`
leaves column 0 holding the item `S → • (0)` twice — two structurally
equal items in one column. -/
theorem c8_counterexample :
    ¬ NodupChart (parseChart gDup (fun (_ : Char) (_ : Char) => false) []) := by
  unfold NodupChart
  decide

/-- C8 amended: provided the seeds are pairwise distinct (i.e. the rule
list does not literally repeat a rule headed by the start symbol — the
seeding path appends without consulting `add_item`), every chart column is
duplicate-free at every point of the parse: `add_item` appends an item at
the end of a column only when no structurally equal item occupies it
(keeping insertion order otherwise), every single processing step preserves
column-duplicate-freedom, and so do chart initialisation and the complete
parse. -/
theorem chart_columns_nodup (g : Grammar μ) (mf : μ → τ → Bool)
    (input : List τ) (hseed : (seedItems g g.start).Nodup) :
    (∀ (col : List (EItem μ)) (it : EItem μ), it ∈ col → addItem col it = col) ∧
    (∀ (col : List (EItem μ)) (it : EItem μ), it ∉ col →
      addItem col it = col ++ [it]) ∧
    NodupChart (initChart g g.start input.length) ∧
    (∀ (token : Option τ) (idx cfuel : Nat) (item : EItem μ)
      (states : List (List (EItem μ))), NodupChart states →
        NodupChart (applyItem g mf token idx cfuel item states)) ∧
    NodupChart (parseChart g mf input) := by
  refine ⟨?_, ?_, NodupChart_init g hseed _, ?_, ?_⟩
  · intro col it hmem
    unfold addItem
    rw [if_pos hmem]
  · intro col it hmem
    unfold addItem
    rw [if_neg hmem]
  · intro token idx cfuel item states hst
    exact NodupChart_applyItem g mf token idx cfuel item hst
  · unfold parseChart
    have aux : ∀ (l : List Nat) (st : List (List (EItem μ))), NodupChart st →
        NodupChart (l.foldl (fun st idx =>
          processColumn g mf input[idx]? idx (chartFuel g input.length) st) st) := by
      intro l
      induction l with
      | nil => exact fun st hst => hst
      | cons i rest ih =>
        intro st hst
        rw [List.foldl_cons]
        exact ih _ (NodupChart_processColumn g mf _ _ _ hst)
    exact aux _ _ (NodupChart_init g hseed _)

/-- Witness for the amended C8 on a duplicate-free grammar. -/
theorem chart_columns_nodup_witness :
    (seedItems gAmb gAmb.start).Nodup ∧
      NodupChart (parseChart gAmb (fun m c => m = c) ['a']) :=
  ⟨by decide,
    (chart_columns_nodup gAmb (fun m c => m = c) ['a'] (by decide)).2.2.2.2⟩

/-! ### C7: prediction and nullable closure reach the chart -/

theorem predictAll_length (g : Grammar μ) (idx : Nat) (B : Sym μ)
    (states : List (List (EItem μ))) :
    (predictAll g idx B states).length = states.length := by
  unfold predictAll
  have aux : ∀ (l : List (Rule μ)) (st : List (List (EItem μ))),
      (l.foldl (fun st r =>
        if r.symbol = B then addItemAt st idx ⟨r, idx, 0⟩ else st) st).length =
        st.length := by
    intro l
    induction l with
    | nil => exact fun st => rfl
    | cons r rest ih =>
      intro st
      rw [List.foldl_cons, ih]
      split
      · exact addItemAt_length _ _ _
      · rfl
  exact aux g.rules states

theorem mem_predictAll (g : Grammar μ) (idx : Nat) (B : Sym μ)
    {states : List (List (EItem μ))} (hlen : idx < states.length)
    {r : Rule μ} (hr : r ∈ g.rules) (hhead : r.symbol = B) :
    (⟨r, idx, 0⟩ : EItem μ) ∈ (predictAll g idx B states).getD idx [] := by
  obtain ⟨l₁, l₂, hdec⟩ := List.append_of_mem hr
  unfold predictAll
  rw [hdec, List.foldl_append, List.foldl_cons]
  have hgrow : ∀ (l : List (Rule μ)) (st : List (List (EItem μ))),
      Grows st (l.foldl (fun st r =>
        if r.symbol = B then addItemAt st idx ⟨r, idx, 0⟩ else st) st) := by
    intro l st
    refine foldl_grows _ ?_ l st
    intro s r'
    split
    · exact addItemAt_grows _ _ _
    · exact Grows.refl s
  refine (hgrow l₂ _).mem ?_
  rw [if_pos hhead]
  have hlen₁ : idx < (l₁.foldl (fun st r =>
      if r.symbol = B then addItemAt st idx ⟨r, idx, 0⟩ else st) states).length := by
    rw [← (hgrow l₁ states).1]
    exact hlen
  exact mem_addItemAt_self _ _ _ hlen₁

theorem ChartInv_foldl_cols (g : Grammar μ) (mf : μ → τ → Bool)
    (input : List τ) (l : List Nat) (hl : ∀ i ∈ l, i ≤ input.length)
    {st : List (List (EItem μ))} (h : ChartInv g input.length st) :
    ChartInv g input.length
      (l.foldl (fun st idx =>
        processColumn g mf input[idx]? idx (chartFuel g input.length) st) st) := by
  induction l generalizing st with
  | nil => exact h
  | cons i rest ih =>
    rw [List.foldl_cons]
    exact ih (fun i' hi' => hl i' (by simp [hi']))
      (ChartInv_processColumn mf _ _ h (hl i (by simp)))

theorem foldl_cols_frozen (g : Grammar μ) (mf : μ → τ → Bool)
    (input : List τ) {idx : Nat} (l : List Nat) (hl : ∀ i ∈ l, idx < i)
    (st : List (List (EItem μ))) :
    (l.foldl (fun st i =>
      processColumn g mf input[i]? i (chartFuel g input.length) st) st).getD idx [] =
      st.getD idx [] := by
  induction l generalizing st with
  | nil => rfl
  | cons i rest ih =>
    rw [List.foldl_cons, ih (fun i' hi' => hl i' (by simp [hi']))]
    have hi := hl i (by simp)
    exact processColumn_getD_lt g mf _ i _ st (by omega) (by omega)

/-- The column at `idx` of the finished chart is exactly the column left by
the sweep over column `idx`, applied to the chart state reached after all
earlier columns; that intermediate state and the sweep result both satisfy
the chart invariant. -/
theorem parseChart_getD_decomp (g : Grammar μ) (mf : μ → τ → Bool)
    (input : List τ) {idx : Nat} (hidx : idx ≤ input.length) :
    ∃ stA : List (List (EItem μ)), ChartInv g input.length stA ∧
      (parseChart g mf input).getD idx [] =
        (processColumn g mf input[idx]? idx (chartFuel g input.length) stA).getD idx [] ∧
      ChartInv g input.length
        (processColumn g mf input[idx]? idx (chartFuel g input.length) stA) := by
  have hsplit : input.length + 1 = (idx + 1) + (input.length - idx) := by omega
  refine ⟨(List.range idx).foldl (fun st i =>
      processColumn g mf input[i]? i (chartFuel g input.length) st)
      (initChart g g.start input.length), ?_, ?_, ?_⟩
  · refine ChartInv_foldl_cols g mf input _ ?_ (ChartInv_init g input.length)
    intro i hi
    rw [List.mem_range] at hi
    omega
  · unfold parseChart
    rw [hsplit, List.range_add, List.foldl_append, List.range_succ,
      List.foldl_append, List.foldl_cons, List.foldl_nil]
    refine foldl_cols_frozen g mf input _ ?_ _
    intro i hi
    rcases List.mem_map.1 hi with ⟨i', _, rfl⟩
    omega
  · refine ChartInv_processColumn mf _ _ ?_ hidx
    refine ChartInv_foldl_cols g mf input _ ?_ (ChartInv_init g input.length)
    intro i hi
    rw [List.mem_range] at hi
    omega

/-- Core processing lemma: every item of the final state of column `idx`
was processed during that column's sweep, so when its next expected symbol
is a nonterminal, its predictions (and, for a nullable symbol, its
advancing copy) are in the column. -/
theorem mem_chart_prediction_closure (g : Grammar μ) (mf : μ → τ → Bool)
    (input : List τ) {idx : Nat} {it : EItem μ}
    (hit : it ∈ (parseChart g mf input).getD idx [])
    (hpos : it.position < it.rule.expansion.length)
    {nm : List Char}
    (hsym : it.rule.expansion.getD it.position (Sym.nt []) = Sym.nt nm) :
    (∀ r ∈ g.rules, r.symbol = Sym.nt nm →
      (⟨r, idx, 0⟩ : EItem μ) ∈ (parseChart g mf input).getD idx []) ∧
    (Sym.nt nm ∈ g.nullable → it.adv ∈ (parseChart g mf input).getD idx []) := by
  have hchart := ChartInv_parseChart g mf input
  by_cases hidx : idx ≤ input.length
  swap
  · exfalso
    rw [List.getD_eq_default _ _ (by rw [hchart.1]; omega)] at hit
    exact absurd hit (List.not_mem_nil it)
  obtain ⟨stA, hInvA, heq, hInvRes⟩ := parseChart_getD_decomp g mf input hidx
  rw [heq] at hit ⊢
  rcases List.mem_iff_getElem.1 hit with ⟨j, hj, hjit⟩
  have hbound : ((processColumn g mf input[idx]? idx (chartFuel g input.length)
      stA).getD idx []).length ≤ chartFuel g input.length :=
    ChartInv_len_le hInvRes idx
  unfold processColumn at hit hj hjit hbound ⊢
  obtain ⟨s', hGgrow, hjlen, hGrest⟩ :=
    sweep_reached (fun st => (st.getD idx []).length)
      (fun j st => applyItem g mf input[idx]? idx (chartFuel g input.length)
        ((st.getD idx []).getD j default) st)
      Grows Grows.refl (fun a b c => Grows.trans)
      (fun j st => applyItem_grows g mf input[idx]? idx (chartFuel g input.length) _ st)
      (chartFuel g input.length) 0 stA j (Nat.zero_le j) hj
      (by rw [Nat.zero_add]; exact hbound)
  have hGall : Grows s' (sweep (fun st => (st.getD idx []).length)
      (fun j st => applyItem g mf input[idx]? idx (chartFuel g input.length)
        ((st.getD idx []).getD j default) st)
      (chartFuel g input.length) 0 stA) :=
    (applyItem_grows g mf input[idx]? idx (chartFuel g input.length) _ s').trans hGrest
  have hitem' : (s'.getD idx []).getD j default = it := by
    rw [IsPrefix.getD_eq (hGall.2 idx) hjlen, List.getD_eq_getElem _ _ hj, hjit]
  rw [hitem'] at hGrest
  have hlen' : idx < s'.length := by
    rw [← hGgrow.1, hInvA.1]
    omega
  have happly : applyItem g mf input[idx]? idx (chartFuel g input.length) it s' =
      (if Sym.nt nm ∈ g.nullable then
        addItemAt (predictAll g idx (Sym.nt nm) s') idx it.adv
      else predictAll g idx (Sym.nt nm) s') := by
    unfold applyItem
    rw [if_neg (by omega), hsym]
  rw [happly] at hGrest
  constructor
  · intro r hr hhead
    refine hGrest.mem ?_
    split
    · refine (addItemAt_grows _ _ _).mem ?_
      exact mem_predictAll g idx _ hlen' hr hhead
    · exact mem_predictAll g idx _ hlen' hr hhead
  · intro hnul
    refine hGrest.mem ?_
    rw [if_pos hnul]
    refine mem_addItemAt_self _ _ _ ?_
    rw [predictAll_length]
    exact hlen'

/-- C7: during parsing, for every item in column `idx` whose next expected
symbol is a nonterminal `B`, column `idx` contains one new item per rule
headed by `B`, at dot 0 and origin `idx`; and when `B` is in the grammar's
nullable set, column `idx` also contains the advancing copy (same rule,
same origin, dot + 1) of the item. -/
theorem prediction_and_nullable_closure (g : Grammar μ) (mf : μ → τ → Bool)
    (input : List τ) {idx : Nat} {it : EItem μ}
    (hit : it ∈ (parseChart g mf input).getD idx [])
    (hpos : it.position < it.rule.expansion.length)
    {nm : List Char}
    (hsym : it.rule.expansion.getD it.position (Sym.nt []) = Sym.nt nm) :
    (∀ r ∈ g.rules, r.symbol = Sym.nt nm →
      (⟨r, idx, 0⟩ : EItem μ) ∈ (parseChart g mf input).getD idx []) ∧
    (Sym.nt nm ∈ g.nullable → it.adv ∈ (parseChart g mf input).getD idx []) :=
  mem_chart_prediction_closure g mf input hit hpos hsym

/-- Grammar for the C7 witness: `S → A 'b'`, `A → ε` (so `A` is nullable). -/
def rulesC7 : List (Rule Char) :=
  [⟨Sym.nt ['S'], [Sym.nt ['A'], Sym.t 'b']⟩, ⟨Sym.nt ['A'], []⟩]

/-- The grammar value built from `rulesC7`. -/
def gC7 : Grammar Char := ⟨rulesC7, Sym.nt ['S'], findNullables rulesC7⟩

/-- The seed item `S → • A 'b' (0)`. -/
def itC7 : EItem Char := ⟨⟨Sym.nt ['S'], [Sym.nt ['A'], Sym.t 'b']⟩, 0, 0⟩

/-- Witness for C7 at the seed item of `gC7` on input `"b"`: its next
symbol is the nullable nonterminal `A`. -/
theorem prediction_and_nullable_closure_witness :
    (itC7 ∈ (parseChart gC7 (fun m c => m = c) ['b']).getD 0 []) ∧
    ((∀ r ∈ gC7.rules, r.symbol = Sym.nt ['A'] →
        (⟨r, 0, 0⟩ : EItem Char) ∈
          (parseChart gC7 (fun m c => m = c) ['b']).getD 0 []) ∧
      (Sym.nt ['A'] ∈ gC7.nullable →
        itC7.adv ∈ (parseChart gC7 (fun m c => m = c) ['b']).getD 0 [])) :=
  ⟨by decide,
    prediction_and_nullable_closure gC7 (fun m c => m = c) ['b']
      (by decide) (by decide) (by decide)⟩

/-! ### C9: parsing the empty input -/

theorem findNullables_heads {rules : List (Rule μ)} :
    ∀ x ∈ findNullables rules, ∃ r ∈ rules, r.symbol = x := by
  unfold findNullables
  have aux : ∀ (f : Nat) (acc : List (Sym μ)),
      (∀ x ∈ acc, ∃ r ∈ rules, r.symbol = x) →
      ∀ x ∈ nullLoop rules f acc, ∃ r ∈ rules, r.symbol = x := by
    intro f
    induction f with
    | zero => exact fun acc h => h
    | succ f ih =>
      intro acc hacc
      unfold nullLoop
      split
      · exact hacc
      · exact ih _ (passNullable_heads hacc)
  exact aux _ [] (by simp)

theorem findNullables_mem_inv {rules : List (Rule μ)} {x : Sym μ}
    (h : x ∈ findNullables rules) :
    ∃ r ∈ rules, r.symbol = x ∧ ∀ s ∈ r.expansion, s ∈ findNullables rules := by
  have hnd := findNullables_sound x h
  cases hnd with
  | mk hr hall =>
    exact ⟨_, hr, rfl, fun s hs => findNullables_complete (hall s hs)⟩

theorem mkGrammar_inv {rules : List (Rule μ)} {start : Sym μ} {g : Grammar μ}
    (hg : mkGrammar rules start = some g) :
    g.rules = rules ∧ g.start = start ∧ g.nullable = findNullables rules := by
  unfold mkGrammar at hg
  split at hg
  · cases hg
    exact ⟨rfl, rfl, rfl⟩
  · cases hg

/-- Soundness invariant for an empty-input parse: every item of column 0
has a grammar rule, origin 0, and all symbols before its dot in the
nullable set. -/
def NullInv (g : Grammar μ) (states : List (List (EItem μ))) : Prop :=
  ∀ it ∈ states.getD 0 [], it.rule ∈ g.rules ∧ it.start = 0 ∧
    ∀ s ∈ it.rule.expansion.take it.position, s ∈ g.nullable

theorem NullInv_addItemAt_ne {g : Grammar μ} {states : List (List (EItem μ))}
    (h : NullInv g states) (newIt : EItem μ) {c : Nat} (hc : c ≠ 0) :
    NullInv g (addItemAt states c newIt) := by
  intro it hit
  rw [addItemAt_getD_ne _ _ _ _ (fun he => hc he.symm)] at hit
  exact h it hit

theorem NullInv_addItemAt_zero {g : Grammar μ} {states : List (List (EItem μ))}
    (h : NullInv g states) (newIt : EItem μ)
    (hnew : newIt.rule ∈ g.rules ∧ newIt.start = 0 ∧
      ∀ s ∈ newIt.rule.expansion.take newIt.position, s ∈ g.nullable) :
    NullInv g (addItemAt states 0 newIt) := by
  intro it hit
  by_cases hl : 0 < states.length
  · unfold addItemAt at hit
    rw [getD_set_self _ _ _ _ hl] at hit
    unfold addItem at hit
    split at hit
    · exact h it hit
    · rcases List.mem_append.1 hit with h1 | h1
      · exact h it h1
      · simp only [List.mem_singleton] at h1
        subst h1
        exact hnew
  · unfold addItemAt at hit
    rw [List.set_eq_of_length_le (by omega)] at hit
    exact h it hit

/-- Advancing the dot over a nullable (or out-of-range) next symbol keeps
all pre-dot symbols nullable. -/
theorem adv_take_null {g : Grammar μ} {it : EItem μ}
    (h : ∀ s ∈ it.rule.expansion.take it.position, s ∈ g.nullable)
    (hB : it.rule.expansion.getD it.position (Sym.nt []) ∈ g.nullable ∨
      it.rule.expansion.length ≤ it.position) :
    ∀ s ∈ it.rule.expansion.take (it.position + 1), s ∈ g.nullable := by
  intro s hs
  rw [List.take_succ] at hs
  rcases List.mem_append.1 hs with h1 | h1
  · exact h s h1
  · rcases hge : it.rule.expansion[it.position]? with _ | v
    · rw [hge] at h1
      simp at h1
    · rw [hge] at h1
      simp only [Option.toList_some, List.mem_singleton] at h1
      subst h1
      have hlt : it.position < it.rule.expansion.length := by
        by_contra hcon
        rw [List.getElem?_eq_none (by omega)] at hge
        cases hge
      rcases hB with hB | hB
      · rwa [List.getD, List.get?_eq_getElem?, hge, Option.getD_some] at hB
      · omega

theorem NullInv_applyItem {g : Grammar μ} {mf : μ → τ → Bool}
    {states : List (List (EItem μ))}
    (hclosed : ∀ r ∈ g.rules, (∀ s ∈ r.expansion, s ∈ g.nullable) →
      r.symbol ∈ g.nullable)
    (h : NullInv g states) (cfuel : Nat) {item : EItem μ}
    (hOK : item.rule ∈ g.rules ∧ item.start = 0 ∧
      ∀ s ∈ item.rule.expansion.take item.position, s ∈ g.nullable) :
    NullInv g (applyItem g mf none 0 cfuel item states) := by
  obtain ⟨hrule, hstart, htake⟩ := hOK
  unfold applyItem
  rw [hstart]
  split
  · rename_i hcomp
    have hhead : item.rule.symbol ∈ g.nullable := by
      refine hclosed item.rule hrule ?_
      intro s hs
      refine htake s ?_
      rw [hcomp, List.take_length]
      exact hs
    refine sweep_inv _ _ (NullInv g) ?_ cfuel 0 states h
    intro j s hj hs
    split
    · rename_i hcm
      have hmem : (s.getD 0 []).getD j default ∈ s.getD 0 [] := by
        rw [List.getD_eq_getElem _ _ hj]
        exact List.getElem_mem hj
      have hciOK := hs _ hmem
      unfold EItem.canMatch at hcm
      simp only [Bool.and_eq_true, decide_eq_true_eq] at hcm
      refine NullInv_addItemAt_zero hs _ ⟨hciOK.1, hciOK.2.1, ?_⟩
      exact adv_take_null hciOK.2.2 (Or.inl (by rw [hcm.2]; exact hhead))
    · exact hs
  · split
    · split
      · split
        · exact NullInv_addItemAt_ne h _ (by omega)
        · exact h
      · exact h
    · rename_i hnt
      have hpredInv : ∀ B : Sym μ, NullInv g (predictAll g 0 B states) := by
        intro B
        unfold predictAll
        have aux : ∀ (l : List (Rule μ)), (∀ r ∈ l, r ∈ g.rules) →
            ∀ st, NullInv g st →
            NullInv g (l.foldl (fun st r =>
              if r.symbol = B then addItemAt st 0 ⟨r, 0, 0⟩ else st) st) := by
          intro l
          induction l with
          | nil => exact fun _ st hst => hst
          | cons r rest ih =>
            intro hsub st hst
            rw [List.foldl_cons]
            refine ih (fun r' hr' => hsub r' (by simp [hr'])) _ ?_
            split
            · exact NullInv_addItemAt_zero hst _ ⟨hsub r (by simp), rfl, by simp⟩
            · exact hst
        exact aux g.rules (fun _ h => h) states h
      split
      · rename_i hnul
        refine NullInv_addItemAt_zero (hpredInv _) _
          ⟨hrule, hstart, adv_take_null htake (Or.inl (by rw [hnt]; exact hnul))⟩
      · exact hpredInv _

theorem NullInv_parseChart_empty {g : Grammar μ} (mf : μ → τ → Bool)
    (hclosed : ∀ r ∈ g.rules, (∀ s ∈ r.expansion, s ∈ g.nullable) →
      r.symbol ∈ g.nullable) :
    NullInv g (parseChart g mf ([] : List τ)) := by
  unfold parseChart
  rw [show List.range (List.length ([] : List τ) + 1) = [0] from rfl,
    List.foldl_cons, List.foldl_nil]
  refine sweep_inv _ _ (NullInv g) ?_ _ 0 _ ?_
  · intro j s hj hs
    have hmem : (s.getD 0 []).getD j default ∈ s.getD 0 [] := by
      rw [List.getD_eq_getElem _ _ hj]
      exact List.getElem_mem hj
    exact NullInv_applyItem hclosed hs _ (hs _ hmem)
  · intro it hit
    rw [initChart_getD] at hit
    simp only [Nat.lt_irrefl, zero_lt_one, if_true, if_pos rfl] at hit
    rcases (seedItems_mem g g.start it).1 hit with ⟨r, hr, _, rfl⟩
    exact ⟨hr, rfl, by simp⟩

/-- Progress on empty input: a start rule whose whole expansion is
nullable is driven to completion inside column 0 by the nullable-closure
steps. -/
theorem null_progress {g : Grammar μ} (mf : μ → τ → Bool)
    (hnulHeads : ∀ x ∈ g.nullable, ∃ r ∈ g.rules, r.symbol = x)
    (hheads : ∀ r ∈ g.rules, r.symbol.isTerm = false)
    {r : Rule μ} (hr : r ∈ g.rules) (hstart : r.symbol = g.start)
    (hexp : ∀ s ∈ r.expansion, s ∈ g.nullable) :
    (⟨r, 0, r.expansion.length⟩ : EItem μ) ∈
      (parseChart g mf ([] : List τ)).getD 0 [] := by
  have key : ∀ k, k ≤ r.expansion.length →
      (⟨r, 0, k⟩ : EItem μ) ∈ (parseChart g mf ([] : List τ)).getD 0 [] := by
    intro k
    induction k with
    | zero =>
      intro _
      have hinit : (⟨r, 0, 0⟩ : EItem μ) ∈ (initChart g g.start 0).getD 0 [] := by
        rw [initChart_getD]
        simp only [zero_lt_one, if_true, if_pos rfl]
        exact (seedItems_mem g g.start _).2 ⟨r, hr, hstart, rfl⟩
      unfold parseChart
      rw [show List.range (List.length ([] : List τ) + 1) = [0] from rfl,
        List.foldl_cons, List.foldl_nil]
      exact (processColumn_grows g mf _ 0 _ _).mem hinit
    | succ k ih =>
      intro hk
      have hklt : k < r.expansion.length := by omega
      have hmem := ih (by omega)
      have hx : r.expansion.getD k (Sym.nt []) ∈ g.nullable := by
        rw [List.getD_eq_getElem _ _ hklt]
        exact hexp _ (List.getElem_mem hklt)
      obtain ⟨r', hr', hr'head⟩ := hnulHeads _ hx
      have hnonterm : (r.expansion.getD k (Sym.nt [])).isTerm = false := by
        rw [← hr'head]
        exact hheads r' hr'
      rcases hget : r.expansion.getD k (Sym.nt []) with nm | m
      swap
      · rw [hget] at hnonterm
        cases hnonterm
      have hadv := (mem_chart_prediction_closure g mf ([] : List τ) hmem hklt hget).2
        (by rw [← hget]; exact hx)
      exact hadv
  exact key _ (Nat.le_refl _)

/-- C9: on empty input the chart has exactly one column, column 0 is
seeded with one dot-0 origin-0 item per start rule, the parse is accepted
(`is_fully_parsed`) iff the start symbol is nullable, and otherwise the
report is the code's no-parse outcome: flag false, nothing surfaced at
all. -/
theorem empty_input_parse {rules : List (Rule μ)} {start : Sym μ}
    {g : Grammar μ} (mf : μ → τ → Bool) (hg : mkGrammar rules start = some g)
    (hheads : ∀ r ∈ g.rules, r.symbol.isTerm = false) :
    (parseChart g mf ([] : List τ)).length = 1 ∧
    initChart g g.start 0 = [seedItems g g.start] ∧
    (∀ it : EItem μ, it ∈ seedItems g g.start ↔
      ∃ r ∈ g.rules, r.symbol = g.start ∧ it = ⟨r, 0, 0⟩) ∧
    ((parseReport g mf ([] : List τ)).isFullyParsed = true ↔
      g.start ∈ g.nullable) ∧
    (g.start ∉ g.nullable →
      parseReport g mf ([] : List τ) = ⟨[], false, []⟩) := by
  obtain ⟨hgr, _, hgn⟩ := mkGrammar_inv hg
  have hclosed : ∀ r ∈ g.rules, (∀ s ∈ r.expansion, s ∈ g.nullable) →
      r.symbol ∈ g.nullable := by
    intro r hrr hex
    rw [hgn]
    rw [hgr] at hrr
    refine findNullables_closed hrr ?_
    intro s hs
    rw [← hgn]
    exact hex s hs
  have hsound := NullInv_parseChart_empty (g := g) mf hclosed
  have hlen1 : (parseChart g mf ([] : List τ)).length = 1 :=
    (ChartInv_parseChart g mf []).1
  obtain ⟨c, hc⟩ := List.length_eq_one.1 hlen1
  have hcol : (parseChart g mf ([] : List τ)).getD 0 [] = c := by rw [hc]; rfl
  have hlast : (parseChart g mf ([] : List τ)).getLastD [] = c := by rw [hc]; rfl
  have hfullSound : ∀ it ∈ c, it.isFull g.start = true → g.start ∈ g.nullable := by
    intro it hitc hfull
    have hOK := hsound it (by rw [hcol]; exact hitc)
    unfold EItem.isFull EItem.isPartial at hfull
    simp only [Bool.and_eq_true, decide_eq_true_eq] at hfull
    obtain ⟨⟨hpos, _⟩, hsym⟩ := hfull
    have := hclosed it.rule hOK.1 (fun s hs => hOK.2.2 s (by
      rw [hpos, List.take_length]; exact hs))
    rwa [hsym] at this
  refine ⟨hlen1, by simp [initChart, List.range_succ],
    fun it => seedItems_mem g g.start it, ?_, ?_⟩
  · constructor
    · intro hflag
      unfold parseReport reportOf at hflag
      rw [hlast] at hflag
      by_cases hfe : (c.filter (fun it => it.isFull g.start)).isEmpty = true
      · rw [if_pos hfe] at hflag
        cases hflag
      · simp only [List.isEmpty_iff] at hfe
        rcases List.exists_mem_of_ne_nil _ hfe with ⟨it, hit⟩
        rcases List.mem_filter.1 hit with ⟨h1, h2⟩
        exact hfullSound it h1 h2
    · intro hnul
      rw [hgn] at hnul
      obtain ⟨r, hr, hrstart, hrexp⟩ := findNullables_mem_inv hnul
      rw [← hgr] at hr
      have hfull : (⟨r, 0, r.expansion.length⟩ : EItem μ) ∈ c := by
        rw [← hcol]
        refine null_progress mf ?_ hheads hr hrstart ?_
        · intro x hx
          rw [hgn] at hx
          obtain ⟨r', h1, h2⟩ := findNullables_heads x hx
          exact ⟨r', by rw [hgr]; exact h1, h2⟩
        · intro s hs
          rw [hgn]
          exact hrexp s hs
      have hisfull : (⟨r, 0, r.expansion.length⟩ : EItem μ).isFull g.start = true := by
        unfold EItem.isFull EItem.isPartial
        simp [hrstart]
      unfold parseReport reportOf
      rw [hlast]
      rw [if_neg (by
        simp only [List.isEmpty_iff]
        intro hnil
        have hmemf : (⟨r, 0, r.expansion.length⟩ : EItem μ) ∈
            c.filter (fun it => it.isFull g.start) :=
          List.mem_filter.2 ⟨hfull, hisfull⟩
        rw [hnil] at hmemf
        exact absurd hmemf (List.not_mem_nil _))]
  · intro hnul
    have hfe : c.filter (fun it => it.isFull g.start) = [] := by
      rw [List.filter_eq_nil_iff]
      intro it hit hfull
      exact hnul (hfullSound it hit hfull)
    unfold parseReport reportOf
    rw [hlast, hc, if_pos (by rw [hfe]; rfl)]
    simp [hfe]

/-- Grammar for the C9 witness: the single rule `S → ε`, whose start symbol
is nullable. -/
def rulesC9 : List (Rule Char) := [⟨Sym.nt ['S'], []⟩]

/-- The grammar value `mkGrammar` produces for `rulesC9`. -/
def gC9 : Grammar Char := ⟨rulesC9, Sym.nt ['S'], findNullables rulesC9⟩

/-- Witness for C9 on the nullable grammar `S → ε` with empty input. -/
theorem empty_input_parse_witness :
    mkGrammar rulesC9 (Sym.nt ['S']) = some gC9 ∧
      ((parseReport gC9 (fun (m : Char) (c : Char) => m = c) ([] : List Char)).isFullyParsed = true ↔
        gC9.start ∈ gC9.nullable) :=
  ⟨by decide,
    (@empty_input_parse Char _ Char rulesC9 (Sym.nt ['S']) gC9
      (fun (m : Char) (c : Char) => m = c) (by decide) (by decide)).2.2.2.1⟩

/-! ### The grammar-DSL tokenizer (`tokenize` in grammar_parser.py) -/

/-- `TokenType` of grammar_parser.py. -/
inductive TokType where
  | STRING | IDENTIFIER | OPERATOR | NEWLINE | ENDMARKER
deriving DecidableEq, Repr

/-- `Token(value, type)` of grammar_parser.py; the value is the raw
character slice. -/
structure GTok where
  value : List Char
  type : TokType
deriving DecidableEq, Repr

/-- `id_chars = set(string.ascii_letters + string.digits + "_")`. -/
def idChar (c : Char) : Bool := c.isAlpha || c.isDigit || c = '_'

/-- `op_chars = set("()[]|*+:")`. -/
def opChar (c : Char) : Bool :=
  c = '(' || c = ')' || c = '[' || c = ']' || c = '|' || c = '*' || c = '+' || c = ':'

/-- The `#` comment loop: `while input[idx] != "\n" and idx < end` indexes
`input[idx]` FIRST, so when the comment runs to the end of the input the
read at `idx = end` raises IndexError — modelled as `none`. -/
def scanComment (input : List Char) (i : Nat) : Option Nat :=
  if hi : i < input.length then
    if input[i] = '\n' then some (i + 1) else scanComment input (i + 1)
  else none
termination_by input.length - i
decreasing_by omega

/-- The string-literal close scan: `while idx2 < end and input[idx2] != c`.
Returns the index of the closing quote, or `input.length` when there is
none. -/
def findClose (input : List Char) (q : Char) (i : Nat) : Nat :=
  if hi : i < input.length then
    if input[i] = q then i else findClose input q (i + 1)
  else i
termination_by input.length - i
decreasing_by omega

/-- The identifier scan: `while idx2 < end and input[idx2] in id_chars`. -/
def scanIdent (input : List Char) (i : Nat) : Nat :=
  if hi : i < input.length then
    if idChar input[i] then scanIdent input (i + 1) else i
  else i
termination_by input.length - i
decreasing_by omega

/-- Python slice `input[a:b]`. -/
def slice (input : List Char) (a b : Nat) : List Char :=
  (input.drop a).take (b - a)

/-- The branch dispatch of the tokenizer's outer loop body on the current
character `c = input[i]`. -/
def tokStepChar (input : List Char) (i : Nat) (lvl : Int) (c : Char) :
    Option (List GTok × Nat × Int) :=
  if c = '#' then
    match scanComment input i with
    | none => none
    | some i' => some ([], i', lvl)
  else if c = '\'' ∨ c = '\"' then
    some ([⟨slice input (i + 1) (findClose input c (i + 1)), TokType.STRING⟩],
      findClose input c (i + 1) + 1, lvl)
  else if c = ' ' then some ([], i + 1, lvl)
  else if idChar c then
    some ([⟨slice input i (scanIdent input (i + 1)), TokType.IDENTIFIER⟩],
      scanIdent input (i + 1), lvl)
  else if opChar c then
    some ([⟨[c], TokType.OPERATOR⟩], i + 1,
      if c = '(' ∨ c = '[' then lvl + 1
      else if c = ')' ∨ c = ']' then lvl - 1
      else lvl)
  else if c = '\n' then
    some (if lvl = 0 then [⟨['\n'], TokType.NEWLINE⟩] else [], i + 1, lvl)
  else none

/-- One iteration of the tokenizer's outer `while idx < end` loop at
position `i`, nesting level `lvl`: the emitted tokens, the next position
and the next level, or `none` on an exception (unknown character, or the
comment IndexError). -/
def tokStep (input : List Char) (i : Nat) (lvl : Int) :
    Option (List GTok × Nat × Int) :=
  match input[i]? with
  | none => none
  | some c => tokStepChar input i lvl c

theorem scanComment_lt (input : List Char) :
    ∀ (i i' : Nat), scanComment input i = some i' → i < i' := by
  have aux : ∀ (k i i' : Nat), input.length - i ≤ k →
      scanComment input i = some i' → i < i' := by
    intro k
    induction k with
    | zero =>
      intro i i' hk h
      unfold scanComment at h
      rw [dif_neg (by omega)] at h
      cases h
    | succ k ih =>
      intro i i' hk h
      unfold scanComment at h
      by_cases hi : i < input.length
      · rw [dif_pos hi] at h
        split at h
        · cases h
          omega
        · have := ih (i + 1) i' (by omega) h
          omega
      · rw [dif_neg hi] at h
        cases h
  exact fun i i' h => aux (input.length - i) i i' (Nat.le_refl _) h

theorem findClose_ge (input : List Char) (q : Char) :
    ∀ i, i ≤ findClose input q i := by
  have aux : ∀ (k i : Nat), input.length - i ≤ k → i ≤ findClose input q i := by
    intro k
    induction k with
    | zero =>
      intro i hk
      unfold findClose
      split
      · split
        · exact Nat.le_refl i
        · omega
      · exact Nat.le_refl i
    | succ k ih =>
      intro i hk
      unfold findClose
      split
      · split
        · exact Nat.le_refl i
        · exact Nat.le_trans (Nat.le_succ i) (ih (i + 1) (by omega))
      · exact Nat.le_refl i
  exact fun i => aux (input.length - i) i (Nat.le_refl _)

theorem scanIdent_ge (input : List Char) :
    ∀ i, i ≤ scanIdent input i := by
  have aux : ∀ (k i : Nat), input.length - i ≤ k → i ≤ scanIdent input i := by
    intro k
    induction k with
    | zero =>
      intro i hk
      unfold scanIdent
      split
      · split
        · omega
        · exact Nat.le_refl i
      · exact Nat.le_refl i
    | succ k ih =>
      intro i hk
      unfold scanIdent
      split
      · split
        · exact Nat.le_trans (Nat.le_succ i) (ih (i + 1) (by omega))
        · exact Nat.le_refl i
      · exact Nat.le_refl i
  exact fun i => aux (input.length - i) i (Nat.le_refl _)

theorem tokStepChar_lt {input : List Char} {i : Nat} {lvl : Int} {c : Char}
    {ts : List GTok} {i' : Nat} {lvl' : Int}
    (h : tokStepChar input i lvl c = some (ts, i', lvl')) : i < i' := by
  unfold tokStepChar at h
  split at h
  · split at h
    · cases h
    · rename_i hsc
      cases h
      exact scanComment_lt input i _ hsc
  · split at h
    · cases h
      have := findClose_ge input c (i + 1)
      omega
    · split at h
      · cases h; omega
      · split at h
        · cases h
          have := scanIdent_ge input (i + 1)
          omega
        · split at h
          · cases h; omega
          · split at h
            · cases h; omega
            · cases h

theorem tokStep_lt {input : List Char} {i : Nat} {lvl : Int}
    {ts : List GTok} {i' : Nat} {lvl' : Int}
    (h : tokStep input i lvl = some (ts, i', lvl')) : i < i' := by
  unfold tokStep at h
  split at h
  · cases h
  · exact tokStepChar_lt h

/-- The tokenizer itself, from position `i` at nesting level `lvl`; when
the loop exits, the end marker is emitted. -/
def tokenizeAux (input : List Char) (i : Nat) (lvl : Int) :
    Option (List GTok) :=
  if hi : i < input.length then
    match h : tokStep input i lvl with
    | none => none
    | some (ts, i', lvl') =>
      match tokenizeAux input i' lvl' with
      | none => none
      | some rest => some (ts ++ rest)
  else some [⟨[], TokType.ENDMARKER⟩]
termination_by input.length - i
decreasing_by
  have := tokStep_lt h
  omega

/-- `tokenize` of grammar_parser.py. -/
def tokenize (input : List Char) : Option (List GTok) := tokenizeAux input 0 0

/-- The positions (and nesting levels) that the tokenizer's outer loop
visits while scanning `input`. -/
inductive TokPos (input : List Char) : Nat → Int → Prop
  | zero : TokPos input 0 0
  | step {i : Nat} {lvl : Int} {ts : List GTok} {i' : Nat} {lvl' : Int} :
      TokPos input i lvl → tokStep input i lvl = some (ts, i', lvl') →
      TokPos input i' lvl'

theorem tokStep_isSome_lt {input : List Char} {i : Nat} {lvl : Int}
    {res : List GTok × Nat × Int} (h : tokStep input i lvl = some res) :
    i < input.length := by
  unfold tokStep at h
  split at h
  · cases h
  · rename_i c hc
    rcases List.getElem?_eq_some.1 hc with ⟨hlt, _⟩
    exact hlt

theorem tokenizeAux_step {input : List Char} {i : Nat} {lvl : Int}
    {ts : List GTok} {i' : Nat} {lvl' : Int}
    (hstep : tokStep input i lvl = some (ts, i', lvl')) :
    tokenizeAux input i lvl =
      match tokenizeAux input i' lvl' with
      | none => none
      | some rest => some (ts ++ rest) := by
  have hi : i < input.length := tokStep_isSome_lt hstep
  conv_lhs => unfold tokenizeAux
  rw [dif_pos hi]
  split
  · rename_i heq
    rw [hstep] at heq
    cases heq
  · rename_i ts2 i2 lvl2 heq
    rw [hstep] at heq
    injection heq with heq2
    injection heq2 with h1 h2
    injection h2 with h3 h4
    subst h1 h3 h4
    rfl

theorem tokenizeAux_end {input : List Char} {i : Nat} {lvl : Int}
    (hi : ¬ i < input.length) :
    tokenizeAux input i lvl = some [⟨[], TokType.ENDMARKER⟩] := by
  unfold tokenizeAux
  rw [dif_neg hi]

theorem tokStep_no_end {input : List Char} {i : Nat} {lvl : Int}
    {ts : List GTok} {i' : Nat} {lvl' : Int}
    (h : tokStep input i lvl = some (ts, i', lvl')) :
    ∀ t ∈ ts, t.type ≠ TokType.ENDMARKER := by
  unfold tokStep at h
  split at h
  · cases h
  · unfold tokStepChar at h
    split at h
    · split at h
      · cases h
      · cases h
        simp
    · split at h
      · cases h
        intro t ht
        simp only [List.mem_singleton] at ht
        subst ht
        simp
      · split at h
        · cases h
          simp
        · split at h
          · cases h
            intro t ht
            simp only [List.mem_singleton] at ht
            subst ht
            simp
          · split at h
            · cases h
              intro t ht
              simp only [List.mem_singleton] at ht
              subst ht
              simp
            · split at h
              · cases h
                intro t ht
                split at ht
                · simp only [List.mem_singleton] at ht
                  subst ht
                  simp
                · simp at ht
              · cases h

/-- Whatever the tokenizer produced before reaching a visited position is a
fixed, end-marker-free prefix: the tokens from that position onward
determine the overall result. -/
theorem tokPos_split {input : List Char} {i : Nat} {lvl : Int}
    (h : TokPos input i lvl) :
    ∃ pre : List GTok, (∀ t ∈ pre, t.type ≠ TokType.ENDMARKER) ∧
      (tokenizeAux input i lvl = none → tokenize input = none) ∧
      ∀ ts, tokenizeAux input i lvl = some ts →
        tokenize input = some (pre ++ ts) := by
  induction h with
  | zero =>
    exact ⟨[], by simp, fun hh => hh, fun ts hh => by rw [tokenize, hh]; rfl⟩
  | @step i lvl ts i' lvl' hpos hstep ih =>
    obtain ⟨pre, hnoend, hn, hs⟩ := ih
    have hunf := tokenizeAux_step hstep
    refine ⟨pre ++ ts, ?_, ?_, ?_⟩
    · intro t ht
      rcases List.mem_append.1 ht with h1 | h1
      · exact hnoend t h1
      · exact tokStep_no_end hstep t h1
    · intro hh
      refine hn ?_
      rw [hunf, hh]
    · intro ts' hh
      have : tokenizeAux input i lvl = some (ts ++ ts') := by
        rw [hunf, hh]
      rw [hs _ this, List.append_assoc]

theorem scanComment_none {input : List Char} :
    ∀ i, (∀ j, i ≤ j → input[j]? ≠ some '\n') →
      scanComment input i = none := by
  have aux : ∀ (k i : Nat), input.length - i ≤ k →
      (∀ j, i ≤ j → input[j]? ≠ some '\n') → scanComment input i = none := by
    intro k
    induction k with
    | zero =>
      intro i hk h
      unfold scanComment
      rw [dif_neg (by omega)]
    | succ k ih =>
      intro i hk h
      unfold scanComment
      by_cases hi : i < input.length
      · rw [dif_pos hi]
        rw [if_neg (by
          intro hnl
          exact h i (Nat.le_refl i) (by rw [List.getElem?_eq_getElem hi, hnl]))]
        exact ih (i + 1) (by omega) (fun j hj => h j (by omega))
      · rw [dif_neg hi]
  exact fun i h => aux (input.length - i) i (Nat.le_refl _) h

/-- C10: the grammar-DSL tokenizer is not total.  Whenever it reaches a
`#` that starts a comment with no newline anywhere after it (a line
comment running to end of input), the comment loop indexes `input[idx]`
before checking `idx < end`, reads past the end of the input and fails
instead of yielding the end marker. -/
theorem tokenize_not_total {input : List Char} {i : Nat} {lvl : Int}
    (hpos : TokPos input i lvl) (hc : input[i]? = some '#')
    (hnone : ∀ j < input.length, i < j → input[j]? ≠ some '\n') :
    tokenize input = none := by
  rcases List.getElem?_eq_some.1 hc with ⟨hi, hci⟩
  have hsc : scanComment input i = none := by
    refine scanComment_none i ?_
    intro j hj
    rcases Nat.eq_or_lt_of_le hj with rfl | hlt
    · rw [hc]
      intro hcon
      cases hcon
    · by_cases hjl : j < input.length
      · exact hnone j hjl hlt
      · rw [List.getElem?_eq_none (by omega)]
        intro hcon
        cases hcon
  have hstep : tokStep input i lvl = none := by
    unfold tokStep
    rw [hc]
    show tokStepChar input i lvl '#' = none
    unfold tokStepChar
    rw [if_pos rfl, hsc]
  have haux : tokenizeAux input i lvl = none := by
    unfold tokenizeAux
    rw [dif_pos hi]
    split
    · rfl
    · rename_i heq
      rw [hstep] at heq
      cases heq
  obtain ⟨pre, _, hn, _⟩ := tokPos_split hpos
  exact hn haux

/-- Witness for C10: the two-character source `"#x"` — a comment that
reaches end of input without a newline — crashes the tokenizer. -/
theorem tokenize_not_total_witness : tokenize ['#', 'x'] = none :=
  tokenize_not_total TokPos.zero (by decide) (by decide)

/-! ### The recursive-descent grammar parser (`GrammarParser`) -/

/-- Decimal rendering (fuelled; `natDecimal` supplies enough fuel). -/
def natDecimalAux : Nat → Nat → List Char
  | 0, _ => []
  | fuel + 1, n =>
    if n < 10 then [Char.ofNat (48 + n)]
    else natDecimalAux fuel (n / 10) ++ [Char.ofNat (48 + n % 10)]

/-- Decimal rendering of a natural number, as Python's `"%d"`. -/
def natDecimal (n : Nat) : List Char := natDecimalAux (n + 1) n

/-- The name `"__INTERNAL__%d" % n` of `_create_internal_symbol`. -/
def internalName (n : Nat) : List Char := "__INTERNAL__".data ++ natDecimal n

/-- The fresh nonterminal `_create_internal_symbol` returns for counter
value `n`. -/
def internalSym (n : Nat) : Sym μ := Sym.nt (internalName n)

/-- Python `str.isupper` restricted to the identifier alphabet: at least
one cased (alphabetic) character and no lowercase one. -/
def pyIsUpper (l : List Char) : Bool :=
  l.any (fun c => c.isAlpha) && l.all (fun c => !c.isLower)

/-- The mutable state of a `GrammarParser` run: the current token
(`self.token`), the remaining tokens (the generator), the accumulated
rules and the internal-symbol counter. -/
structure GPState (μ : Type) where
  cur : GTok
  rest : List GTok
  rules : List (Rule μ)
  counter : Nat
deriving DecidableEq, Repr

/-- `GrammarParser.consume`: return the current token and pull the next
one from the stream; an exhausted stream raises StopIteration (`none`). -/
def consume (s : GPState μ) : Option (GTok × GPState μ) :=
  match s.rest with
  | [] => none
  | t :: ts => some (s.cur, { s with cur := t, rest := ts })

/-- `GrammarParser.expect`: check the current token's type (and value when
given), then consume it; a failed assert is `none`. -/
def expect (s : GPState μ) (ty : TokType) (v : Option (List Char)) :
    Option (GTok × GPState μ) :=
  if s.cur.type = ty then
    match v with
    | some val => if s.cur.value = val then consume s else none
    | none => consume s
  else none

mutual

/-- `parse_rhs`: `ALT ('|' ALT)*`, adding one rule headed `lhs` per
alternative. -/
def parse_rhs (tc : List Char → μ) : Nat → Sym μ → GPState μ → Option (GPState μ)
  | 0, _, _ => none
  | fuel + 1, lhs, s => do
    let s₁ ← parse_alt tc fuel lhs s
    parse_rhs_loop tc fuel lhs s₁

/-- The `while '|'` loop of `parse_rhs`. -/
def parse_rhs_loop (tc : List Char → μ) : Nat → Sym μ → GPState μ → Option (GPState μ)
  | 0, _, _ => none
  | fuel + 1, lhs, s =>
    if s.cur.type = TokType.OPERATOR ∧ s.cur.value = ['|'] then do
      let (_, s₁) ← consume s
      let s₂ ← parse_alt tc fuel lhs s₁
      parse_rhs_loop tc fuel lhs s₂
    else some s

/-- `parse_alt`: `ITEM+`, then `add_rule(lhs, items)`. -/
def parse_alt (tc : List Char → μ) : Nat → Sym μ → GPState μ → Option (GPState μ)
  | 0, _, _ => none
  | fuel + 1, lhs, s => do
    let (items₁, s₁) ← parse_item tc fuel s
    let (items, s₂) ← parse_alt_loop tc fuel items₁ s₁
    some { s₂ with rules := s₂.rules ++ [⟨lhs, items⟩] }

/-- The item loop of `parse_alt` (runs while the current token can start
an item). -/
def parse_alt_loop (tc : List Char → μ) :
    Nat → List (Sym μ) → GPState μ → Option (List (Sym μ) × GPState μ)
  | 0, _, _ => none
  | fuel + 1, items, s =>
    if (s.cur.type = TokType.OPERATOR ∧
        (s.cur.value = ['['] ∨ s.cur.value = ['('])) ∨
        s.cur.type = TokType.IDENTIFIER ∨ s.cur.type = TokType.STRING then do
      let (its, s₁) ← parse_item tc fuel s
      parse_alt_loop tc fuel (items ++ its) s₁
    else some (items, s)

/-- `parse_item`: `'[' RHS ']'` (fresh `N`, one rule per alternative plus
`N → ε`, substitute `[N]`), or `ATOM ['+' | '*']` (fresh `N` with
`N → ATOM`, `N → N ATOM`, and additionally `N → ε` for `*`). -/
def parse_item (tc : List Char → μ) :
    Nat → GPState μ → Option (List (Sym μ) × GPState μ)
  | 0, _ => none
  | fuel + 1, s =>
    if s.cur.type = TokType.OPERATOR ∧ s.cur.value = ['['] then do
      let (_, s₁) ← consume s
      let s₂ ← parse_rhs tc fuel (internalSym (s₁.counter + 1))
        { s₁ with counter := s₁.counter + 1 }
      let (_, s₄) ← expect
        { s₂ with rules := s₂.rules ++ [⟨internalSym (s₁.counter + 1), []⟩] }
        TokType.OPERATOR (some [']'])
      some ([internalSym (s₁.counter + 1)], s₄)
    else do
      let (atom, s₁) ← parse_atom tc fuel s
      if s₁.cur.type = TokType.OPERATOR ∧
          (s₁.cur.value = ['+'] ∨ s₁.cur.value = ['*']) then do
        let N : Sym μ := internalSym (s₁.counter + 1)
        let s₂ : GPState μ :=
          { s₁ with counter := s₁.counter + 1,
                    rules := s₁.rules ++ [⟨N, atom⟩, ⟨N, N :: atom⟩] }
        let s₃ : GPState μ :=
          if s₁.cur.value = ['*'] then { s₂ with rules := s₂.rules ++ [⟨N, []⟩] }
          else s₂
        let (_, s₄) ← consume s₃
        some ([N], s₄)
      else some (atom, s₁)

/-- `parse_atom`: `'(' RHS ')'` (fresh `N`, substitute), identifier
(upper-case: terminal via `terminal_cls`, else nonterminal), or string
literal (terminal via `terminal_cls`). -/
def parse_atom (tc : List Char → μ) :
    Nat → GPState μ → Option (List (Sym μ) × GPState μ)
  | 0, _ => none
  | fuel + 1, s =>
    if s.cur.type = TokType.OPERATOR ∧ s.cur.value = ['('] then do
      let (_, s₁) ← consume s
      let s₂ ← parse_rhs tc fuel (internalSym (s₁.counter + 1))
        { s₁ with counter := s₁.counter + 1 }
      let (_, s₃) ← expect s₂ TokType.OPERATOR (some [')'])
      some ([internalSym (s₁.counter + 1)], s₃)
    else if s.cur.type = TokType.IDENTIFIER then do
      let (tok, s₁) ← consume s
      if pyIsUpper tok.value then some ([Sym.t (tc tok.value)], s₁)
      else some ([Sym.nt tok.value], s₁)
    else if s.cur.type = TokType.STRING then do
      let (tok, s₁) ← consume s
      some ([Sym.t (tc tok.value)], s₁)
    else none

end

/-- The `while NEWLINE: consume` prologue of `parse_rule`. -/
def skipNewlines : Nat → GPState μ → Option (GPState μ)
  | 0, _ => none
  | fuel + 1, s =>
    if s.cur.type = TokType.NEWLINE then do
      let (_, s₁) ← consume s
      skipNewlines fuel s₁
    else some s

/-- `parse_rule`: skip newlines, read `IDENT ':' RHS NEWLINE`, and return
the rule head (for start-symbol tracking). -/
def parse_rule (tc : List Char → μ) : Nat → GPState μ → Option (GPState μ × Sym μ)
  | 0, _ => none
  | fuel + 1, s => do
    let s₀ ← skipNewlines fuel s
    let (tok, s₁) ← expect s₀ TokType.IDENTIFIER none
    let (_, s₂) ← expect s₁ TokType.OPERATOR (some [':'])
    let s₃ ← parse_rhs tc fuel (Sym.nt tok.value) s₂
    let (_, s₄) ← expect s₃ TokType.NEWLINE none
    some (s₄, Sym.nt tok.value)

/-- The `while self.token.type != ENDMARKER` loop of `GrammarParser.parse`,
tracking the first rule head as the start symbol. -/
def parseLoop (tc : List Char → μ) :
    Nat → GPState μ → Option (Sym μ) → Option (List (Rule μ) × Option (Sym μ))
  | 0, _, _ => none
  | fuel + 1, s, startSym =>
    if s.cur.type = TokType.ENDMARKER then some (s.rules, startSym)
    else do
      let (s', lhs) ← parse_rule tc fuel s
      parseLoop tc fuel s' (startSym.orElse (fun _ => some lhs))

/-- `GrammarParser.parse` up to (but not including) the final `Grammar`
construction: tokenize, then parse rules until the end marker, with a
given recursion fuel. -/
def compileWithFuel (tc : List Char → μ) (fuel : Nat) (input : List Char) :
    Option (List (Rule μ) × Option (Sym μ)) :=
  match tokenize input with
  | none => none
  | some [] => none
  | some (t :: ts) => parseLoop tc fuel ⟨t, ts, [], 0⟩ none

/-- `GrammarParser.parse` with a fuel that dominates any real run. -/
def compileGrammar (tc : List Char → μ) (input : List Char) :
    Option (List (Rule μ) × Option (Sym μ)) :=
  compileWithFuel tc ((input.length + 2) * 8) input

/-! ### C5: `ATOM+` and `ATOM*` desugaring -/

/-- C5: at every occurrence of `ATOM+` during compilation (an atom followed
by the `+` operator), the compiler bumps the counter once, introduces the
fresh nonterminal `N = internalSym (counter + 1)`, appends exactly the two
rules `N → ATOM` and `N → N ATOM` (left-recursive one-or-more), consumes
the operator, and substitutes `[N]` for the occurrence; for `ATOM*` it
appends the same two rules plus additionally `N → ε`. -/
theorem repetition_desugaring (tc : List Char → μ) (fuel : Nat)
    {s s₁ : GPState μ} {atom : List (Sym μ)}
    (hnotbr : ¬ (s.cur.type = TokType.OPERATOR ∧ s.cur.value = ['[']))
    (hatom : parse_atom tc fuel s = some (atom, s₁))
    (hop : s₁.cur.type = TokType.OPERATOR)
    {t : GTok} {ts : List GTok} (hrest : s₁.rest = t :: ts) :
    (s₁.cur.value = ['+'] →
      parse_item tc (fuel + 1) s =
        some ([internalSym (s₁.counter + 1)],
          { cur := t, rest := ts,
            rules := s₁.rules ++
              [⟨internalSym (s₁.counter + 1), atom⟩,
               ⟨internalSym (s₁.counter + 1), internalSym (s₁.counter + 1) :: atom⟩],
            counter := s₁.counter + 1 })) ∧
    (s₁.cur.value = ['*'] →
      parse_item tc (fuel + 1) s =
        some ([internalSym (s₁.counter + 1)],
          { cur := t, rest := ts,
            rules := s₁.rules ++
              [⟨internalSym (s₁.counter + 1), atom⟩,
               ⟨internalSym (s₁.counter + 1), internalSym (s₁.counter + 1) :: atom⟩,
               ⟨internalSym (s₁.counter + 1), []⟩],
            counter := s₁.counter + 1 })) := by
  constructor
  · intro hplus
    simp only [parse_item]
    rw [if_neg hnotbr, hatom]
    simp only [Option.bind_eq_bind, Option.some_bind]
    rw [if_pos ⟨hop, Or.inl hplus⟩, hplus]
    rw [if_neg (by decide)]
    unfold consume
    simp [hrest, List.append_assoc]
  · intro hstar
    simp only [parse_item]
    rw [if_neg hnotbr, hatom]
    simp only [Option.bind_eq_bind, Option.some_bind]
    rw [if_pos ⟨hop, Or.inr hstar⟩, hstar]
    rw [if_pos rfl]
    unfold consume
    simp [hrest, List.append_assoc]

/-- Concrete compiler state for the C5 witness: current token `b`, next
tokens `+ NEWLINE ENDMARKER`. -/
def sC5 : GPState (List Char) :=
  ⟨⟨['b'], TokType.IDENTIFIER⟩,
   [⟨['+'], TokType.OPERATOR⟩, ⟨['\n'], TokType.NEWLINE⟩, ⟨[], TokType.ENDMARKER⟩],
   [], 0⟩

/-- The state after `parse_atom` consumed `b` from `sC5`. -/
def s1C5 : GPState (List Char) :=
  ⟨⟨['+'], TokType.OPERATOR⟩,
   [⟨['\n'], TokType.NEWLINE⟩, ⟨[], TokType.ENDMARKER⟩], [], 0⟩

/-- Witness for C5: parsing `b+` from `sC5` yields the fresh symbol with
exactly the two left-recursive rules. -/
theorem repetition_desugaring_witness :
    parse_item (fun l : List Char => l) 6 sC5 =
      some ([internalSym 1],
        { cur := ⟨['\n'], TokType.NEWLINE⟩, rest := [⟨[], TokType.ENDMARKER⟩],
          rules := [⟨internalSym 1, [Sym.nt ['b']]⟩,
                    ⟨internalSym 1, [internalSym 1, Sym.nt ['b']]⟩],
          counter := 1 }) :=
  (@repetition_desugaring (List Char) _ (fun l : List Char => l) 5 sC5 s1C5
    [Sym.nt ['b']] (by decide) (by decide) (by decide)
    ⟨['\n'], TokType.NEWLINE⟩ [⟨[], TokType.ENDMARKER⟩] (by decide)).1 (by decide)

/-! ### C2: an unterminated string literal always aborts compilation -/

/-- The token stream as seen from a parser state: the current token
followed by the not-yet-pulled ones. -/
@[reducible] def stream (s : GPState μ) : List GTok := s.cur :: s.rest

theorem consume_facts {s : GPState μ} {tok : GTok} {s' : GPState μ}
    (h : consume s = some (tok, s')) :
    tok = s.cur ∧ stream s = s.cur :: stream s' := by
  unfold consume at h
  cases hr : s.rest with
  | nil => rw [hr] at h; cases h
  | cons t ts =>
    rw [hr] at h
    injection h with h1
    injection h1 with h2 h3
    subst h2 h3
    exact ⟨rfl, by simp [stream, hr]⟩

theorem consume_suffix {s : GPState μ} {tok : GTok} {s' : GPState μ}
    (h : consume s = some (tok, s')) : stream s' <:+ stream s := by
  rw [(consume_facts h).2]
  exact List.suffix_cons _ _

theorem expect_facts {s : GPState μ} {ty : TokType} {v : Option (List Char)}
    {tok : GTok} {s' : GPState μ} (h : expect s ty v = some (tok, s')) :
    s.cur.type = ty ∧ stream s = s.cur :: stream s' := by
  unfold expect at h
  split at h
  · rename_i hty
    split at h
    · split at h
      · exact ⟨hty, (consume_facts h).2⟩
      · cases h
    · exact ⟨hty, (consume_facts h).2⟩
  · cases h

theorem expect_suffix {s : GPState μ} {ty : TokType} {v : Option (List Char)}
    {tok : GTok} {s' : GPState μ} (h : expect s ty v = some (tok, s')) :
    stream s' <:+ stream s := by
  rw [(expect_facts h).2]
  exact List.suffix_cons _ _

/-- All parse functions only ever move forward in the token stream: a
successful call's final stream is a suffix of the initial one. -/
theorem parse_suffix (tc : List Char → μ) :
    ∀ fuel : Nat,
      (∀ (lhs : Sym μ) (s s' : GPState μ), parse_rhs tc fuel lhs s = some s' →
        stream s' <:+ stream s) ∧
      (∀ (lhs : Sym μ) (s s' : GPState μ), parse_rhs_loop tc fuel lhs s = some s' →
        stream s' <:+ stream s) ∧
      (∀ (lhs : Sym μ) (s s' : GPState μ), parse_alt tc fuel lhs s = some s' →
        stream s' <:+ stream s) ∧
      (∀ (items res : List (Sym μ)) (s s' : GPState μ),
        parse_alt_loop tc fuel items s = some (res, s') → stream s' <:+ stream s) ∧
      (∀ (res : List (Sym μ)) (s s' : GPState μ),
        parse_item tc fuel s = some (res, s') → stream s' <:+ stream s) ∧
      (∀ (res : List (Sym μ)) (s s' : GPState μ),
        parse_atom tc fuel s = some (res, s') → stream s' <:+ stream s) := by
  intro fuel
  induction fuel with
  | zero =>
    refine ⟨?_, ?_, ?_, ?_, ?_, ?_⟩
    · intro lhs s s' h; cases h
    · intro lhs s s' h; cases h
    · intro lhs s s' h; cases h
    · intro items res s s' h; cases h
    · intro res s s' h; cases h
    · intro res s s' h; cases h
  | succ fuel ih =>
    obtain ⟨ihrhs, ihrhsl, ihalt, ihaltl, ihitem, ihatom⟩ := ih
    refine ⟨?_, ?_, ?_, ?_, ?_, ?_⟩
    · -- parse_rhs
      intro lhs s s' h
      simp only [parse_rhs, Option.bind_eq_bind] at h
      cases halt : parse_alt tc fuel lhs s with
      | none => rw [halt] at h; cases h
      | some s₁ =>
        rw [halt, Option.some_bind] at h
        exact (ihrhsl lhs s₁ s' h).trans (ihalt lhs s s₁ halt)
    · -- parse_rhs_loop
      intro lhs s s' h
      simp only [parse_rhs_loop, Option.bind_eq_bind] at h
      split at h
      · cases hcons : consume s with
        | none => rw [hcons] at h; cases h
        | some p =>
          obtain ⟨tok, s₁⟩ := p
          rw [hcons, Option.some_bind] at h
          cases halt : parse_alt tc fuel lhs s₁ with
          | none => rw [halt] at h; cases h
          | some s₂ =>
            rw [halt, Option.some_bind] at h
            exact ((ihrhsl lhs s₂ s' h).trans (ihalt lhs s₁ s₂ halt)).trans
              (consume_suffix hcons)
      · injection h with h1
        subst h1
        exact List.suffix_refl _
    · -- parse_alt
      intro lhs s s' h
      simp only [parse_alt, Option.bind_eq_bind] at h
      cases hitem : parse_item tc fuel s with
      | none => rw [hitem] at h; cases h
      | some p =>
        obtain ⟨items₁, s₁⟩ := p
        rw [hitem, Option.some_bind] at h
        cases hloop : parse_alt_loop tc fuel items₁ s₁ with
        | none => rw [hloop] at h; cases h
        | some q =>
          obtain ⟨items, s₂⟩ := q
          rw [hloop, Option.some_bind] at h
          injection h with h1
          subst h1
          exact ((ihaltl items₁ items s₁ s₂ hloop).trans
            (ihitem items₁ s s₁ hitem))
    · -- parse_alt_loop
      intro items res s s' h
      simp only [parse_alt_loop, Option.bind_eq_bind] at h
      split at h
      · cases hitem : parse_item tc fuel s with
        | none => rw [hitem] at h; cases h
        | some p =>
          obtain ⟨its, s₁⟩ := p
          rw [hitem, Option.some_bind] at h
          exact (ihaltl (items ++ its) res s₁ s' h).trans (ihitem its s s₁ hitem)
      · injection h with h1
        injection h1 with h2 h3
        subst h3
        exact List.suffix_refl _
    · -- parse_item
      intro res s s' h
      simp only [parse_item, Option.bind_eq_bind] at h
      split at h
      · rcases Option.bind_eq_some.1 h with ⟨⟨tok, s₁⟩, hcons, h2⟩
        rcases Option.bind_eq_some.1 h2 with ⟨s₂, hrhs, h3⟩
        rcases Option.bind_eq_some.1 h3 with ⟨⟨tok₂, s₄⟩, hexp, hres⟩
        injection hres with hres1
        injection hres1 with hx hy
        subst hy
        have h4 : stream s₄ <:+ stream s₂ := by
          have := expect_suffix hexp
          simpa [stream] using this
        have h5 : stream s₂ <:+ stream s₁ := by
          have := ihrhs _ _ s₂ hrhs
          simpa [stream] using this
        exact h4.trans (h5.trans (consume_suffix hcons))
      · rcases Option.bind_eq_some.1 h with ⟨⟨atom, s₁⟩, hatom, h2⟩
        clear h
        split at h2
        · split at h2
          · rcases Option.bind_eq_some.1 h2 with ⟨⟨tok₂, s₄⟩, hcons, hres⟩
            injection hres with hres1
            injection hres1 with hx hy
            subst hy
            have h5 : stream s₄ <:+ stream s₁ := by
              have := consume_suffix hcons
              simpa [stream] using this
            exact h5.trans (ihatom atom s s₁ hatom)
          · rcases Option.bind_eq_some.1 h2 with ⟨⟨tok₂, s₄⟩, hcons, hres⟩
            injection hres with hres1
            injection hres1 with hx hy
            subst hy
            have h5 : stream s₄ <:+ stream s₁ := by
              have := consume_suffix hcons
              simpa [stream] using this
            exact h5.trans (ihatom atom s s₁ hatom)
        · injection h2 with h1
          injection h1 with hx hy
          subst hy
          exact ihatom atom s s₁ hatom
    · -- parse_atom
      intro res s s' h
      simp only [parse_atom, Option.bind_eq_bind] at h
      split at h
      · rcases Option.bind_eq_some.1 h with ⟨⟨tok, s₁⟩, hcons, h2⟩
        rcases Option.bind_eq_some.1 h2 with ⟨s₂, hrhs, h3⟩
        rcases Option.bind_eq_some.1 h3 with ⟨⟨tok₂, s₃⟩, hexp, hres⟩
        injection hres with hres1
        injection hres1 with hx hy
        subst hy
        have h4 : stream s₃ <:+ stream s₂ := by
          have := expect_suffix hexp
          simpa [stream] using this
        have h5 : stream s₂ <:+ stream s₁ := by
          have := ihrhs _ _ s₂ hrhs
          simpa [stream] using this
        exact h4.trans (h5.trans (consume_suffix hcons))
      · split at h
        · rcases Option.bind_eq_some.1 h with ⟨⟨tok, s₁⟩, hcons, h2⟩
          split at h2
          · injection h2 with h1
            injection h1 with hx hy
            subst hy
            exact consume_suffix hcons
          · injection h2 with h1
            injection h1 with hx hy
            subst hy
            exact consume_suffix hcons
        · split at h
          · rcases Option.bind_eq_some.1 h with ⟨⟨tok, s₁⟩, hcons, h2⟩
            injection h2 with h1
            injection h1 with hx hy
            subst hy
            exact consume_suffix hcons
          · cases h

/-- When no closing quote occurs at or after `i`, the close scan runs to
the end of the input. -/
theorem findClose_eq_length {input : List Char} {q : Char} :
    ∀ i, i ≤ input.length → (∀ j, i ≤ j → input[j]? ≠ some q) →
      findClose input q i = input.length := by
  have aux : ∀ (k i : Nat), input.length - i ≤ k → i ≤ input.length →
      (∀ j, i ≤ j → input[j]? ≠ some q) →
      findClose input q i = input.length := by
    intro k
    induction k with
    | zero =>
      intro i hk hile h
      unfold findClose
      rw [dif_neg (by omega)]
      omega
    | succ k ih =>
      intro i hk hile h
      unfold findClose
      by_cases hi : i < input.length
      · rw [dif_pos hi]
        rw [if_neg (by
          intro hq
          exact h i (Nat.le_refl i) (by rw [List.getElem?_eq_getElem hi, hq]))]
        exact ih (i + 1) (by omega) (by omega) (fun j hj => h j (by omega))
      · rw [dif_neg hi]
        omega
  exact fun i hile h => aux (input.length - i) i (Nat.le_refl _) hile h

/-- Reaching an opening quote with no matching close makes the tokenizer
silently emit the rest of the input as one STRING token, immediately
followed by the end marker. -/
theorem untermString_tokenize {input : List Char} {i : Nat} {lvl : Int}
    {q : Char} (hpos : TokPos input i lvl) (hquote : q = '\'' ∨ q = '\"')
    (hq : input[i]? = some q)
    (hnoclose : ∀ j < input.length, i < j → input[j]? ≠ some q) :
    ∃ pre : List GTok, (∀ t ∈ pre, t.type ≠ TokType.ENDMARKER) ∧
      tokenize input = some (pre ++
        [⟨slice input (i + 1) input.length, TokType.STRING⟩,
         ⟨[], TokType.ENDMARKER⟩]) := by
  rcases List.getElem?_eq_some.1 hq with ⟨hi, hci⟩
  have hfc : findClose input q (i + 1) = input.length := by
    refine findClose_eq_length (i + 1) (by omega) ?_
    intro j hj
    by_cases hjl : j < input.length
    · exact hnoclose j hjl (by omega)
    · rw [List.getElem?_eq_none (by omega)]
      intro hcon
      cases hcon
  have hstep : tokStep input i lvl =
      some ([⟨slice input (i + 1) input.length, TokType.STRING⟩],
        input.length + 1, lvl) := by
    unfold tokStep
    rw [hq]
    show tokStepChar input i lvl q = _
    unfold tokStepChar
    rw [if_neg (by rcases hquote with rfl | rfl <;> decide), if_pos hquote, hfc]
  have haux : tokenizeAux input i lvl =
      some ([⟨slice input (i + 1) input.length, TokType.STRING⟩] ++
        [⟨[], TokType.ENDMARKER⟩]) := by
    rw [tokenizeAux_step hstep, tokenizeAux_end (by omega)]
  obtain ⟨pre, hnoend, _, hs⟩ := tokPos_split hpos
  exact ⟨pre, hnoend, hs _ haux⟩

/-- The newline-skipping prologue of `parse_rule` only moves forward in
the token stream. -/
theorem skipNewlines_suffix :
    ∀ (fuel : Nat) {s s' : GPState μ}, skipNewlines fuel s = some s' →
      stream s' <:+ stream s := by
  intro fuel
  induction fuel with
  | zero => intro s s' h; cases h
  | succ fuel ih =>
    intro s s' h
    unfold skipNewlines at h
    split at h
    · rcases Option.bind_eq_some.1 h with ⟨⟨tok, s₁⟩, hcons, h2⟩
      exact (ih h2).trans (consume_suffix hcons)
    · injection h with h1
      subst h1
      exact List.suffix_refl _

/-- A successful `parse_rule` ends by consuming a NEWLINE token: the token
standing immediately before the final stream is a newline. -/
theorem parse_rule_newline (tc : List Char → μ) (fuel : Nat)
    {s s' : GPState μ} {lhs : Sym μ}
    (h : parse_rule tc fuel s = some (s', lhs)) :
    ∃ nl : GTok, nl.type = TokType.NEWLINE ∧ nl :: stream s' <:+ stream s := by
  match fuel with
  | 0 => cases h
  | fuel + 1 =>
    simp only [parse_rule, Option.bind_eq_bind] at h
    rcases Option.bind_eq_some.1 h with ⟨s₀, hskip, h1⟩
    rcases Option.bind_eq_some.1 h1 with ⟨⟨tok, s₁⟩, hexp1, h2⟩
    rcases Option.bind_eq_some.1 h2 with ⟨⟨tok2, s₂⟩, hexp2, h3⟩
    rcases Option.bind_eq_some.1 h3 with ⟨s₃, hrhs, h4⟩
    rcases Option.bind_eq_some.1 h4 with ⟨⟨tok3, s₄⟩, hexp3, hres⟩
    injection hres with hres1
    injection hres1 with hx hy
    subst hx
    obtain ⟨hty, hstr3⟩ := expect_facts hexp3
    refine ⟨s₃.cur, hty, ?_⟩
    rw [← hstr3]
    exact (((parse_suffix tc fuel).1 _ _ _ hrhs).trans
      (expect_suffix hexp2)).trans
      ((expect_suffix hexp1).trans (skipNewlines_suffix fuel hskip))

/-- A suffix at least as long as the appended tail decomposes as a chunk of
the front part followed by the whole tail. -/
theorem suffix_split {α : Type} {l pre tail : List α}
    (h : l <:+ pre ++ tail) (hlen : tail.length ≤ l.length) :
    ∃ l', l = l' ++ tail ∧ ∀ t ∈ l', t ∈ pre := by
  obtain ⟨u, hu⟩ := h
  have hL : u.length + l.length = pre.length + tail.length := by
    have := congrArg List.length hu
    simpa using this
  have hule : u.length ≤ pre.length := by omega
  refine ⟨pre.drop u.length, ?_, fun t ht => List.mem_of_mem_drop ht⟩
  have hdrop : l = (pre ++ tail).drop u.length := by
    rw [← hu, List.drop_left]
  rw [hdrop, List.drop_append_eq_append_drop,
    Nat.sub_eq_zero_of_le hule, List.drop_zero]

/-- On a token stream whose last two tokens are a STRING then the end
marker (and with the end marker nowhere earlier), the rule loop of
`GrammarParser.parse` can never succeed: each rule ends on a consumed
NEWLINE, so the STRING sitting right before the end marker always gets in
the way. -/
theorem parseLoop_none (tc : List Char → μ) {pre : List GTok}
    {strTok endTok : GTok}
    (hpre : ∀ t ∈ pre, t.type ≠ TokType.ENDMARKER)
    (hstr : strTok.type = TokType.STRING) :
    ∀ (fuel : Nat) (s : GPState μ) (o : Option (Sym μ)),
      stream s <:+ pre ++ [strTok, endTok] → s.rest ≠ [] →
      parseLoop tc fuel s o = none := by
  intro fuel
  induction fuel with
  | zero => intro s o _ _; rfl
  | succ fuel ih =>
    intro s o hsuf hrest
    have hrl : 1 ≤ s.rest.length := by
      cases hr : s.rest with
      | nil => exact absurd hr hrest
      | cons a l => simp [hr]
    have hlen : ([strTok, endTok] : List GTok).length ≤ (stream s).length := by
      simp only [stream, List.length_cons, List.length_nil]
      omega
    obtain ⟨l', hdec, hmem⟩ := suffix_split hsuf hlen
    have hcur : ¬ s.cur.type = TokType.ENDMARKER := by
      cases l' with
      | nil =>
        have hce : s.cur = strTok := by
          rw [List.nil_append] at hdec
          have hdec' : s.cur :: s.rest = strTok :: [endTok] := hdec
          injection hdec' with h1 _
        rw [hce, hstr]
        intro hcon
        cases hcon
      | cons a l'' =>
        have hce : s.cur = a := by
          rw [List.cons_append] at hdec
          have hdec' : s.cur :: s.rest = a :: (l'' ++ [strTok, endTok]) := hdec
          injection hdec' with h1 _
        rw [hce]
        exact hpre a (hmem a (List.mem_cons_self a l''))
    unfold parseLoop
    rw [if_neg hcur]
    cases hpr : parse_rule tc fuel s with
    | none => simp [hpr]
    | some p =>
      obtain ⟨s', lhs⟩ := p
      obtain ⟨nl, hnl, hnlsuf⟩ := parse_rule_newline tc fuel hpr
      have hsuf' : stream s' <:+ pre ++ [strTok, endTok] :=
        ((List.suffix_cons nl _).trans hnlsuf).trans hsuf
      have hrest' : s'.rest ≠ [] := by
        intro hr
        have hsuf2 : nl :: stream s' <:+ pre ++ [strTok, endTok] :=
          hnlsuf.trans hsuf
        have hlen2 : ([strTok, endTok] : List GTok).length ≤
            (nl :: stream s').length := by
          simp [stream, hr]
        obtain ⟨l2, hl2, _⟩ := suffix_split hsuf2 hlen2
        have hlenl2 : l2.length = 0 := by
          have := congrArg List.length hl2
          simp only [stream, hr, List.length_cons, List.length_nil,
            List.length_append] at this
          omega
        rw [List.eq_nil_of_length_eq_zero hlenl2, List.nil_append] at hl2
        have hl2' : nl :: (s'.cur :: s'.rest) = strTok :: [endTok] := hl2
        injection hl2' with h3 _
        rw [h3, hstr] at hnl
        cases hnl
      simp only [hpr, Option.bind_eq_bind, Option.some_bind]
      exact ih s' _ hsuf' hrest'

/-- C2: for every grammar source containing an unterminated string literal
(an opening `'` or `"` quote never closed before end of input), grammar
compilation fails — the tokenizer silently turns the remainder into a
STRING token followed directly by the end marker, and the rule parser,
which must end every rule by consuming a NEWLINE, can then never reach the
end marker successfully, so `GrammarParser.parse` aborts for every
recursion depth and never yields a compiled grammar. -/
theorem unterminated_string_fails (tc : List Char → μ) {input : List Char}
    {i : Nat} {lvl : Int} {q : Char}
    (hpos : TokPos input i lvl) (hquote : q = '\'' ∨ q = '\"')
    (hq : input[i]? = some q)
    (hnoclose : ∀ j < input.length, i < j → input[j]? ≠ some q) :
    (∀ fuel, compileWithFuel tc fuel input = none) ∧
      compileGrammar tc input = none := by
  obtain ⟨pre, hpre, htok⟩ := untermString_tokenize hpos hquote hq hnoclose
  have hall : ∀ fuel, compileWithFuel tc fuel input = none := by
    intro fuel
    unfold compileWithFuel
    rw [htok]
    cases hl : pre ++
        [⟨slice input (i + 1) input.length, TokType.STRING⟩,
         ⟨[], TokType.ENDMARKER⟩] with
    | nil => rfl
    | cons t ts =>
      show parseLoop tc fuel ⟨t, ts, [], 0⟩ none = none
      refine @parseLoop_none μ _ tc pre
        ⟨slice input (i + 1) input.length, TokType.STRING⟩
        ⟨[], TokType.ENDMARKER⟩ hpre rfl fuel ⟨t, ts, [], 0⟩ none ?_ ?_
      · show t :: ts <:+ _
        rw [hl]
      · show ts ≠ []
        intro hnil
        have hlen := congrArg List.length hl
        rw [hnil] at hlen
        simp only [List.length_append, List.length_cons,
          List.length_nil] at hlen
        omega
  exact ⟨hall, hall _⟩

/-- Witness for C2: the two-character source `'x` opens a string literal
that is never closed; its compilation fails. -/
theorem unterminated_string_fails_witness :
    compileGrammar (fun l : List Char => l) ['\'', 'x'] = none :=
  (unterminated_string_fails (fun l : List Char => l) TokPos.zero
    (Or.inl rfl) (by decide) (by decide)).2

/-! ### C4: `[X]` optional-group desugaring -/

/-- Decimal decoding, inverse to `natDecimal`. -/
def decodeDec (l : List Char) : Nat :=
  l.foldl (fun acc c => acc * 10 + (c.toNat - 48)) 0

theorem decodeDec_append_digit (l : List Char) (c : Char) :
    decodeDec (l ++ [c]) = decodeDec l * 10 + (c.toNat - 48) := by
  unfold decodeDec
  rw [List.foldl_append]
  rfl

theorem digit_toNat : ∀ m < 10, (Char.ofNat (48 + m)).toNat - 48 = m := by
  decide

theorem decode_natDecimalAux :
    ∀ (fuel n : Nat), n < fuel → decodeDec (natDecimalAux fuel n) = n := by
  intro fuel
  induction fuel with
  | zero => intro n hn; omega
  | succ fuel ih =>
    intro n hn
    unfold natDecimalAux
    split
    · rename_i h10
      show decodeDec ([] ++ [Char.ofNat (48 + n)]) = n
      rw [decodeDec_append_digit, digit_toNat n h10]
      show 0 * 10 + n = n
      omega
    · rename_i h10
      rw [decodeDec_append_digit, ih (n / 10) (by omega),
        digit_toNat (n % 10) (by omega)]
      omega

theorem natDecimal_inj {a b : Nat} (h : natDecimal a = natDecimal b) :
    a = b := by
  have ha : decodeDec (natDecimal a) = a :=
    decode_natDecimalAux (a + 1) a (Nat.lt_succ_self a)
  have hb : decodeDec (natDecimal b) = b :=
    decode_natDecimalAux (b + 1) b (Nat.lt_succ_self b)
  rw [← ha, ← hb, h]

theorem internalSym_ne {a b : Nat} (h : a ≠ b) :
    (internalSym a : Sym μ) ≠ internalSym b := by
  intro hcon
  unfold internalSym internalName at hcon
  injection hcon with h1
  exact h (natDecimal_inj (List.append_cancel_left h1))

/-- All rules a nested call adds are headed by internal symbols whose
counter value lies strictly between the initial and (inclusively) the
final counter. -/
def InternalAdds (c₀ c₁ : Nat) (added : List (Rule μ)) : Prop :=
  ∀ r ∈ added, ∃ k, c₀ < k ∧ k ≤ c₁ ∧ r.symbol = (internalSym k : Sym μ)

theorem InternalAdds.nil {c₀ c₁ : Nat} : InternalAdds c₀ c₁ ([] : List (Rule μ)) :=
  fun r hr => absurd hr (List.not_mem_nil r)

theorem InternalAdds.app {c₀ c₁ : Nat} {l₁ l₂ : List (Rule μ)}
    (h₁ : InternalAdds c₀ c₁ l₁) (h₂ : InternalAdds c₀ c₁ l₂) :
    InternalAdds c₀ c₁ (l₁ ++ l₂) := by
  intro r hr
  rcases List.mem_append.1 hr with h | h
  · exact h₁ r h
  · exact h₂ r h

theorem InternalAdds.widen {c₀ c₁ c₀' c₁' : Nat} {l : List (Rule μ)}
    (h : InternalAdds c₀ c₁ l) (h₀ : c₀' ≤ c₀) (h₁ : c₁ ≤ c₁') :
    InternalAdds c₀' c₁' l := by
  intro r hr
  obtain ⟨k, hk₀, hk₁, hsym⟩ := h r hr
  exact ⟨k, by omega, by omega, hsym⟩

/-- `consume` touches only the token cursor: rules and counter are kept. -/
theorem consume_keeps {s : GPState μ} {tok : GTok} {s' : GPState μ}
    (h : consume s = some (tok, s')) :
    s'.rules = s.rules ∧ s'.counter = s.counter := by
  unfold consume at h
  cases hr : s.rest with
  | nil => rw [hr] at h; cases h
  | cons t ts =>
    rw [hr] at h
    injection h with h1
    injection h1 with h2 h3
    subst h3
    exact ⟨rfl, rfl⟩

/-- `expect` touches only the token cursor: rules and counter are kept. -/
theorem expect_keeps {s : GPState μ} {ty : TokType} {v : Option (List Char)}
    {tok : GTok} {s' : GPState μ} (h : expect s ty v = some (tok, s')) :
    s'.rules = s.rules ∧ s'.counter = s.counter := by
  unfold expect at h
  split at h
  · split at h
    · split at h
      · exact consume_keeps h
      · cases h
    · exact consume_keeps h
  · cases h

/-- Evaluation rule for `consume` on a nonempty stream. -/
theorem consume_eq {s : GPState μ} {t : GTok} {ts : List GTok}
    (h : s.rest = t :: ts) :
    consume s = some (s.cur, ⟨t, ts, s.rules, s.counter⟩) := by
  unfold consume
  rw [h]

/-- Evaluation rule for `expect` with a value check, on a nonempty stream. -/
theorem expect_some_eq {s : GPState μ} {ty : TokType} {val : List Char}
    {t : GTok} {ts : List GTok}
    (hty : s.cur.type = ty) (hval : s.cur.value = val) (h : s.rest = t :: ts) :
    expect s ty (some val) = some (s.cur, ⟨t, ts, s.rules, s.counter⟩) := by
  unfold expect
  rw [if_pos hty]
  show (if s.cur.value = val then consume s else none) = _
  rw [if_pos hval]
  exact consume_eq h

/-- Rules headed by internal symbols above `n` never pass a filter for
`internalSym n`, so filtering an alternative-segment flattening leaves
exactly the one lhs-headed rule of each segment. -/
theorem filter_internal_flatten {n c₀ c₁ : Nat} (hgt : n ≤ c₀) :
    ∀ segs : List (List (Rule μ) × List (Sym μ)),
      (∀ p ∈ segs, InternalAdds c₀ c₁ p.1) →
      ((segs.map (fun p => p.1 ++ [(⟨internalSym n, p.2⟩ : Rule μ)])).flatten).filter
          (fun r => r.symbol = (internalSym n : Sym μ))
        = segs.map (fun p => (⟨internalSym n, p.2⟩ : Rule μ)) := by
  intro segs
  induction segs with
  | nil => intro _; rfl
  | cons p rest ih =>
    intro hall
    simp only [List.map_cons, List.flatten_cons, List.filter_append]
    rw [ih (fun q hq => hall q (List.mem_cons_of_mem p hq))]
    have h1 : p.1.filter (fun r => r.symbol = (internalSym n : Sym μ)) = [] := by
      rw [List.filter_eq_nil_iff]
      intro r hr
      obtain ⟨k, hk0, hk1, hsym⟩ := hall p (List.mem_cons_self p rest) r hr
      simp only [decide_eq_true_eq]
      rw [hsym]
      exact internalSym_ne (by omega)
    rw [h1, List.nil_append]
    simp

/-- Rule-addition bookkeeping of all grammar-parser functions: the counter
never decreases, additions are by appending, `parse_rhs` appends one group
of nested-internal rules capped by one lhs-headed rule per alternative
(at least one alternative), and `parse_item` / `parse_atom` add rules
headed only by freshly created internal symbols. -/
theorem parse_adds (tc : List Char → μ) :
    ∀ fuel : Nat,
      (∀ (lhs : Sym μ) (s s' : GPState μ), parse_rhs tc fuel lhs s = some s' →
        s.counter ≤ s'.counter ∧
        ∃ segs : List (List (Rule μ) × List (Sym μ)), segs ≠ [] ∧
          s'.rules = s.rules ++
            (segs.map (fun p => p.1 ++ [⟨lhs, p.2⟩])).flatten ∧
          ∀ p ∈ segs, InternalAdds s.counter s'.counter p.1) ∧
      (∀ (lhs : Sym μ) (s s' : GPState μ), parse_rhs_loop tc fuel lhs s = some s' →
        s.counter ≤ s'.counter ∧
        ∃ segs : List (List (Rule μ) × List (Sym μ)),
          s'.rules = s.rules ++
            (segs.map (fun p => p.1 ++ [⟨lhs, p.2⟩])).flatten ∧
          ∀ p ∈ segs, InternalAdds s.counter s'.counter p.1) ∧
      (∀ (lhs : Sym μ) (s s' : GPState μ), parse_alt tc fuel lhs s = some s' →
        s.counter ≤ s'.counter ∧
        ∃ (nested : List (Rule μ)) (items : List (Sym μ)),
          s'.rules = s.rules ++ nested ++ [⟨lhs, items⟩] ∧
          InternalAdds s.counter s'.counter nested) ∧
      (∀ (items res : List (Sym μ)) (s s' : GPState μ),
        parse_alt_loop tc fuel items s = some (res, s') →
        s.counter ≤ s'.counter ∧
        ∃ nested : List (Rule μ), s'.rules = s.rules ++ nested ∧
          InternalAdds s.counter s'.counter nested) ∧
      (∀ (res : List (Sym μ)) (s s' : GPState μ),
        parse_item tc fuel s = some (res, s') →
        s.counter ≤ s'.counter ∧
        ∃ nested : List (Rule μ), s'.rules = s.rules ++ nested ∧
          InternalAdds s.counter s'.counter nested) ∧
      (∀ (res : List (Sym μ)) (s s' : GPState μ),
        parse_atom tc fuel s = some (res, s') →
        s.counter ≤ s'.counter ∧
        ∃ nested : List (Rule μ), s'.rules = s.rules ++ nested ∧
          InternalAdds s.counter s'.counter nested) := by
  intro fuel
  induction fuel with
  | zero =>
    refine ⟨?_, ?_, ?_, ?_, ?_, ?_⟩
    · intro lhs s s' h; cases h
    · intro lhs s s' h; cases h
    · intro lhs s s' h; cases h
    · intro items res s s' h; cases h
    · intro res s s' h; cases h
    · intro res s s' h; cases h
  | succ fuel ih =>
    obtain ⟨ihrhs, ihrhsl, ihalt, ihaltl, ihitem, ihatom⟩ := ih
    refine ⟨?_, ?_, ?_, ?_, ?_, ?_⟩
    · -- parse_rhs
      intro lhs s s' h
      simp only [parse_rhs, Option.bind_eq_bind] at h
      cases halt : parse_alt tc fuel lhs s with
      | none => rw [halt] at h; cases h
      | some s₁ =>
        rw [halt, Option.some_bind] at h
        obtain ⟨hc1, nested, items, hr1, hint1⟩ := ihalt lhs s s₁ halt
        obtain ⟨hc2, segs, hr2, hint2⟩ := ihrhsl lhs s₁ s' h
        refine ⟨by omega, (nested, items) :: segs, by simp, ?_, ?_⟩
        · rw [hr2, hr1]
          simp [List.append_assoc]
        · intro p hp
          rcases List.mem_cons.1 hp with rfl | hp'
          · exact hint1.widen (Nat.le_refl _) hc2
          · exact (hint2 p hp').widen hc1 (Nat.le_refl _)
    · -- parse_rhs_loop
      intro lhs s s' h
      simp only [parse_rhs_loop, Option.bind_eq_bind] at h
      split at h
      · rcases Option.bind_eq_some.1 h with ⟨⟨tok, s₁⟩, hcons, h2⟩
        rcases Option.bind_eq_some.1 h2 with ⟨s₂, halt, h3⟩
        obtain ⟨hck1, hck2⟩ := consume_keeps hcons
        obtain ⟨hc2, nested, items, hr2, hint2⟩ := ihalt lhs s₁ s₂ halt
        obtain ⟨hc3, segs, hr3, hint3⟩ := ihrhsl lhs s₂ s' h3
        refine ⟨by omega, (nested, items) :: segs, ?_, ?_⟩
        · rw [hr3, hr2, hck1]
          simp [List.append_assoc]
        · intro p hp
          rcases List.mem_cons.1 hp with rfl | hp'
          · exact hint2.widen (by omega) hc3
          · exact (hint3 p hp').widen (by omega) (Nat.le_refl _)
      · injection h with h1
        subst h1
        exact ⟨Nat.le_refl _, [], by simp, fun p hp => absurd hp (List.not_mem_nil p)⟩
    · -- parse_alt
      intro lhs s s' h
      simp only [parse_alt, Option.bind_eq_bind] at h
      rcases Option.bind_eq_some.1 h with ⟨⟨items₁, s₁⟩, hitem, h2⟩
      rcases Option.bind_eq_some.1 h2 with ⟨⟨items, s₂⟩, hloop, hres⟩
      injection hres with h1
      subst h1
      obtain ⟨hc1, n1, hr1, hi1⟩ := ihitem items₁ s s₁ hitem
      obtain ⟨hc2, n2, hr2, hi2⟩ := ihaltl items₁ items s₁ s₂ hloop
      refine ⟨?_, n1 ++ n2, items, ?_, ?_⟩
      · show s.counter ≤ s₂.counter
        omega
      · show s₂.rules ++ [⟨lhs, items⟩] = s.rules ++ (n1 ++ n2) ++ [⟨lhs, items⟩]
        rw [hr2, hr1]
        simp [List.append_assoc]
      · show InternalAdds s.counter s₂.counter (n1 ++ n2)
        exact (hi1.widen (Nat.le_refl _) hc2).app (hi2.widen hc1 (Nat.le_refl _))
    · -- parse_alt_loop
      intro items res s s' h
      simp only [parse_alt_loop, Option.bind_eq_bind] at h
      split at h
      · rcases Option.bind_eq_some.1 h with ⟨⟨its, s₁⟩, hitem, h2⟩
        obtain ⟨hc1, n1, hr1, hi1⟩ := ihitem its s s₁ hitem
        obtain ⟨hc2, n2, hr2, hi2⟩ := ihaltl (items ++ its) res s₁ s' h2
        refine ⟨by omega, n1 ++ n2, ?_, ?_⟩
        · rw [hr2, hr1, List.append_assoc]
        · exact (hi1.widen (Nat.le_refl _) hc2).app (hi2.widen hc1 (Nat.le_refl _))
      · injection h with h1
        injection h1 with h2 h3
        subst h3
        exact ⟨Nat.le_refl _, [], by simp, fun r hr => absurd hr (List.not_mem_nil r)⟩
    · -- parse_item
      intro res s s' h
      simp only [parse_item, Option.bind_eq_bind] at h
      split at h
      · rcases Option.bind_eq_some.1 h with ⟨⟨tok, s₁⟩, hcons, h2⟩
        rcases Option.bind_eq_some.1 h2 with ⟨s₂, hrhs, h3⟩
        rcases Option.bind_eq_some.1 h3 with ⟨⟨tok₂, s₄⟩, hexp, hres⟩
        injection hres with hres1
        injection hres1 with hx hy
        subst hy
        show s.counter ≤ s₄.counter ∧ ∃ nested : List (Rule μ),
          s₄.rules = s.rules ++ nested ∧ InternalAdds s.counter s₄.counter nested
        obtain ⟨hck1, hck2⟩ := consume_keeps hcons
        obtain ⟨hcr, segs, hne, hr2, hint2⟩ := ihrhs _ _ s₂ hrhs
        have hcr' : s₁.counter + 1 ≤ s₂.counter := hcr
        have hr2' : s₂.rules = s₁.rules ++
            (segs.map (fun p =>
              p.1 ++ [⟨internalSym (s₁.counter + 1), p.2⟩])).flatten := hr2
        have hint2' : ∀ p ∈ segs, InternalAdds (s₁.counter + 1) s₂.counter p.1 :=
          hint2
        have hrules4 : s₄.rules = s₂.rules ++
            [⟨internalSym (s₁.counter + 1), []⟩] := (expect_keeps hexp).1
        have hcount4 : s₄.counter = s₂.counter := (expect_keeps hexp).2
        refine ⟨by omega,
          (segs.map (fun p =>
            p.1 ++ [⟨internalSym (s₁.counter + 1), p.2⟩])).flatten ++
            [⟨internalSym (s₁.counter + 1), []⟩], ?_, ?_⟩
        · rw [hrules4, hr2', hck1, List.append_assoc]
        · refine InternalAdds.app ?_ ?_
          · intro r hr
            rcases List.mem_flatten.1 hr with ⟨seg, hsegmem, hrseg⟩
            rcases List.mem_map.1 hsegmem with ⟨p, hp, rfl⟩
            rcases List.mem_append.1 hrseg with hin | hin
            · obtain ⟨k, hk0, hk1, hsym⟩ := hint2' p hp r hin
              exact ⟨k, by omega, by omega, hsym⟩
            · rcases List.mem_singleton.1 hin with rfl
              exact ⟨s₁.counter + 1, by omega, by omega, rfl⟩
          · intro r hr
            rcases List.mem_singleton.1 hr with rfl
            exact ⟨s₁.counter + 1, by omega, by omega, rfl⟩
      · rcases Option.bind_eq_some.1 h with ⟨⟨atom, s₁⟩, hatom, h2⟩
        clear h
        obtain ⟨hc1, n1, hr1, hi1⟩ := ihatom atom s s₁ hatom
        split at h2
        · split at h2
          · rcases Option.bind_eq_some.1 h2 with ⟨⟨tok₂, s₄⟩, hcons, hres⟩
            injection hres with hres1
            injection hres1 with hx hy
            subst hy
            show s.counter ≤ s₄.counter ∧ ∃ nested : List (Rule μ),
              s₄.rules = s.rules ++ nested ∧
              InternalAdds s.counter s₄.counter nested
            have hrules4 : s₄.rules = s₁.rules ++
                [⟨internalSym (s₁.counter + 1), atom⟩,
                 ⟨internalSym (s₁.counter + 1),
                   internalSym (s₁.counter + 1) :: atom⟩,
                 ⟨internalSym (s₁.counter + 1), []⟩] := by
              have := (consume_keeps hcons).1
              rw [this]
              simp [List.append_assoc]
            have hcount4 : s₄.counter = s₁.counter + 1 := (consume_keeps hcons).2
            refine ⟨by omega, n1 ++
              [⟨internalSym (s₁.counter + 1), atom⟩,
               ⟨internalSym (s₁.counter + 1),
                 internalSym (s₁.counter + 1) :: atom⟩,
               ⟨internalSym (s₁.counter + 1), []⟩], ?_, ?_⟩
            · rw [hrules4, hr1, List.append_assoc]
            · refine (hi1.widen (Nat.le_refl _) (by omega)).app ?_
              intro r hr
              rcases List.mem_cons.1 hr with rfl | hr
              · exact ⟨s₁.counter + 1, by omega, by omega, rfl⟩
              rcases List.mem_cons.1 hr with rfl | hr
              · exact ⟨s₁.counter + 1, by omega, by omega, rfl⟩
              rcases List.mem_singleton.1 hr with rfl
              exact ⟨s₁.counter + 1, by omega, by omega, rfl⟩
          · rcases Option.bind_eq_some.1 h2 with ⟨⟨tok₂, s₄⟩, hcons, hres⟩
            injection hres with hres1
            injection hres1 with hx hy
            subst hy
            show s.counter ≤ s₄.counter ∧ ∃ nested : List (Rule μ),
              s₄.rules = s.rules ++ nested ∧
              InternalAdds s.counter s₄.counter nested
            have hrules4 : s₄.rules = s₁.rules ++
                [⟨internalSym (s₁.counter + 1), atom⟩,
                 ⟨internalSym (s₁.counter + 1),
                   internalSym (s₁.counter + 1) :: atom⟩] :=
              (consume_keeps hcons).1
            have hcount4 : s₄.counter = s₁.counter + 1 := (consume_keeps hcons).2
            refine ⟨by omega, n1 ++
              [⟨internalSym (s₁.counter + 1), atom⟩,
               ⟨internalSym (s₁.counter + 1),
                 internalSym (s₁.counter + 1) :: atom⟩], ?_, ?_⟩
            · rw [hrules4, hr1, List.append_assoc]
            · refine (hi1.widen (Nat.le_refl _) (by omega)).app ?_
              intro r hr
              rcases List.mem_cons.1 hr with rfl | hr
              · exact ⟨s₁.counter + 1, by omega, by omega, rfl⟩
              rcases List.mem_singleton.1 hr with rfl
              exact ⟨s₁.counter + 1, by omega, by omega, rfl⟩
        · injection h2 with h1
          injection h1 with hx hy
          subst hy
          exact ⟨hc1, n1, hr1, hi1⟩
    · -- parse_atom
      intro res s s' h
      simp only [parse_atom, Option.bind_eq_bind] at h
      split at h
      · rcases Option.bind_eq_some.1 h with ⟨⟨tok, s₁⟩, hcons, h2⟩
        rcases Option.bind_eq_some.1 h2 with ⟨s₂, hrhs, h3⟩
        rcases Option.bind_eq_some.1 h3 with ⟨⟨tok₂, s₃⟩, hexp, hres⟩
        injection hres with hres1
        injection hres1 with hx hy
        subst hy
        show s.counter ≤ s₃.counter ∧ ∃ nested : List (Rule μ),
          s₃.rules = s.rules ++ nested ∧ InternalAdds s.counter s₃.counter nested
        obtain ⟨hck1, hck2⟩ := consume_keeps hcons
        obtain ⟨hcr, segs, hne, hr2, hint2⟩ := ihrhs _ _ s₂ hrhs
        have hcr' : s₁.counter + 1 ≤ s₂.counter := hcr
        have hr2' : s₂.rules = s₁.rules ++
            (segs.map (fun p =>
              p.1 ++ [⟨internalSym (s₁.counter + 1), p.2⟩])).flatten := hr2
        have hint2' : ∀ p ∈ segs, InternalAdds (s₁.counter + 1) s₂.counter p.1 :=
          hint2
        have hrules3 : s₃.rules = s₂.rules := (expect_keeps hexp).1
        have hcount3 : s₃.counter = s₂.counter := (expect_keeps hexp).2
        refine ⟨by omega,
          (segs.map (fun p =>
            p.1 ++ [⟨internalSym (s₁.counter + 1), p.2⟩])).flatten, ?_, ?_⟩
        · rw [hrules3, hr2', hck1]
        · intro r hr
          rcases List.mem_flatten.1 hr with ⟨seg, hsegmem, hrseg⟩
          rcases List.mem_map.1 hsegmem with ⟨p, hp, rfl⟩
          rcases List.mem_append.1 hrseg with hin | hin
          · obtain ⟨k, hk0, hk1, hsym⟩ := hint2' p hp r hin
            exact ⟨k, by omega, by omega, hsym⟩
          · rcases List.mem_singleton.1 hin with rfl
            exact ⟨s₁.counter + 1, by omega, by omega, rfl⟩
      · split at h
        · rcases Option.bind_eq_some.1 h with ⟨⟨tok, s₁⟩, hcons, h2⟩
          obtain ⟨hck1, hck2⟩ := consume_keeps hcons
          split at h2
          · injection h2 with h1
            injection h1 with hx hy
            subst hy
            show s.counter ≤ s₁.counter ∧ ∃ nested : List (Rule μ),
              s₁.rules = s.rules ++ nested ∧
              InternalAdds s.counter s₁.counter nested
            exact ⟨by omega, [], by simp [hck1],
              fun r hr => absurd hr (List.not_mem_nil r)⟩
          · injection h2 with h1
            injection h1 with hx hy
            subst hy
            show s.counter ≤ s₁.counter ∧ ∃ nested : List (Rule μ),
              s₁.rules = s.rules ++ nested ∧
              InternalAdds s.counter s₁.counter nested
            exact ⟨by omega, [], by simp [hck1],
              fun r hr => absurd hr (List.not_mem_nil r)⟩
        · split at h
          · rcases Option.bind_eq_some.1 h with ⟨⟨tok, s₁⟩, hcons, h2⟩
            obtain ⟨hck1, hck2⟩ := consume_keeps hcons
            injection h2 with h1
            injection h1 with hx hy
            subst hy
            show s.counter ≤ s₁.counter ∧ ∃ nested : List (Rule μ),
              s₁.rules = s.rules ++ nested ∧
              InternalAdds s.counter s₁.counter nested
            exact ⟨by omega, [], by simp [hck1],
              fun r hr => absurd hr (List.not_mem_nil r)⟩
          · cases h

/-- C4: at every occurrence of an optional group `[X]` during compilation,
the compiler bumps the counter once, introduces the fresh nonterminal
`N = internalSym (counter + 1)`, compiles the group body with `N` as the
left-hand side — which adds exactly one rule `N → A` per top-level
alternative `A` of `X` (at least one), any further rules added inside the
body being headed by strictly fresher internal symbols — then appends the
rule `N → ε` and substitutes `[N]` for the group: filtering the resulting
rule list for head `N` yields exactly the previously present `N`-headed
rules, then one rule per alternative, then the final `N → ε`, so `N`
derives zero or exactly one occurrence of the group body. -/
theorem optional_group_desugaring (tc : List Char → μ) (fuel : Nat)
    {s s₂ : GPState μ} {t : GTok} {ts : List GTok}
    (hbr : s.cur.type = TokType.OPERATOR ∧ s.cur.value = ['['])
    (hrest : s.rest = t :: ts)
    (hrhs : parse_rhs tc fuel (internalSym (s.counter + 1))
      ⟨t, ts, s.rules, s.counter + 1⟩ = some s₂)
    (hclose : s₂.cur.type = TokType.OPERATOR ∧ s₂.cur.value = [']'])
    {u : GTok} {us : List GTok} (hrest₂ : s₂.rest = u :: us) :
    parse_item tc (fuel + 1) s =
      some ([internalSym (s.counter + 1)],
        ⟨u, us, s₂.rules ++ [⟨internalSym (s.counter + 1), []⟩], s₂.counter⟩) ∧
    ∃ alts : List (List (Sym μ)), alts ≠ [] ∧
      (s₂.rules ++ [(⟨internalSym (s.counter + 1), []⟩ : Rule μ)]).filter
          (fun r => r.symbol = (internalSym (s.counter + 1) : Sym μ))
        = s.rules.filter
            (fun r => r.symbol = (internalSym (s.counter + 1) : Sym μ))
          ++ alts.map (fun a => (⟨internalSym (s.counter + 1), a⟩ : Rule μ))
          ++ [(⟨internalSym (s.counter + 1), []⟩ : Rule μ)] := by
  constructor
  · have hcons : consume s = some (s.cur, ⟨t, ts, s.rules, s.counter⟩) :=
      consume_eq hrest
    have hexp : expect
        ({ s₂ with rules :=
          s₂.rules ++ [⟨internalSym (s.counter + 1), []⟩] } : GPState μ)
        TokType.OPERATOR (some [']'])
        = some (s₂.cur,
          ⟨u, us, s₂.rules ++ [⟨internalSym (s.counter + 1), []⟩],
            s₂.counter⟩) :=
      expect_some_eq hclose.1 hclose.2 hrest₂
    simp only [parse_item]
    rw [if_pos hbr, hcons]
    simp only [Option.bind_eq_bind, Option.some_bind]
    rw [hrhs]
    simp only [Option.some_bind]
    rw [hexp]
    simp only [Option.some_bind]
  · obtain ⟨hcr, segs, hne, hr2, hint2⟩ := (parse_adds tc fuel).1 _ _ _ hrhs
    have hr2' : s₂.rules = s.rules ++
        (segs.map (fun p =>
          p.1 ++ [⟨internalSym (s.counter + 1), p.2⟩])).flatten := hr2
    have hint2' : ∀ p ∈ segs, InternalAdds (s.counter + 1) s₂.counter p.1 :=
      hint2
    refine ⟨segs.map (fun p => p.2), by simpa using hne, ?_⟩
    rw [List.filter_append, hr2', List.filter_append,
      filter_internal_flatten (Nat.le_refl _) segs hint2']
    simp [List.map_map, List.append_assoc, Function.comp]

/-- A concrete compiler state sitting at an optional group: current token
`[`, next tokens `b ] NEWLINE ENDMARKER`. -/
def sC4 : GPState (List Char) :=
  ⟨⟨['['], TokType.OPERATOR⟩,
   [⟨['b'], TokType.IDENTIFIER⟩, ⟨[']'], TokType.OPERATOR⟩,
    ⟨['\n'], TokType.NEWLINE⟩, ⟨[], TokType.ENDMARKER⟩], [], 0⟩

/-- The state after the body of `[b]` was compiled with lhs
`__INTERNAL__1`. -/
def s2C4 : GPState (List Char) :=
  ⟨⟨[']'], TokType.OPERATOR⟩,
   [⟨['\n'], TokType.NEWLINE⟩, ⟨[], TokType.ENDMARKER⟩],
   [⟨internalSym 1, [Sym.nt ['b']]⟩], 1⟩

/-- Witness for C4: compiling `[b]` yields the fresh symbol
`__INTERNAL__1` with exactly the rules `__INTERNAL__1 → b` and
`__INTERNAL__1 → ε`. -/
theorem optional_group_desugaring_witness :
    parse_item (fun l : List Char => l) 6 sC4 =
      some ([internalSym 1],
        ⟨⟨['\n'], TokType.NEWLINE⟩, [⟨[], TokType.ENDMARKER⟩],
         [⟨internalSym 1, [Sym.nt ['b']]⟩, ⟨internalSym 1, []⟩], 1⟩) ∧
    ∃ alts : List (List (Sym (List Char))), alts ≠ [] ∧
      ([⟨internalSym 1, [Sym.nt ['b']]⟩,
        ⟨internalSym 1, []⟩] : List (Rule (List Char))).filter
          (fun r => r.symbol = (internalSym 1 : Sym (List Char)))
        = ([] : List (Rule (List Char))).filter
            (fun r => r.symbol = (internalSym 1 : Sym (List Char)))
          ++ alts.map (fun a => (⟨internalSym 1, a⟩ : Rule (List Char)))
          ++ [⟨internalSym 1, []⟩] :=
  @optional_group_desugaring (List Char) _ (fun l : List Char => l) 5
    sC4 s2C4 ⟨['b'], TokType.IDENTIFIER⟩
    [⟨[']'], TokType.OPERATOR⟩, ⟨['\n'], TokType.NEWLINE⟩,
     ⟨[], TokType.ENDMARKER⟩]
    (by decide) (by decide) (by decide) (by decide)
    ⟨['\n'], TokType.NEWLINE⟩ [⟨[], TokType.ENDMARKER⟩] (by decide)

end PyEarley
